import Mathlib

/-!
# Verification of the mcp-condenser condensing engine

Shallow embedding of `mcp_condenser/condenser.py`, `mcp_condenser/parsers.py`
and `mcp_condenser/proxy.py` (plus, where the current source tree lacks a
function that only its tests and callers reference, definitions modelled from
the specification, each marked `Modelled from the spec:`).

Modelling conventions:
* Python values parsed from JSON/YAML are the inductive `Value`.  Numbers are
  modelled as (unbounded) integers; floating-point payloads are outside the
  scope of the embedding.
* Python `OrderedDict` is a `List (String × Value)` with in-place update
  semantics (`odUpdate`): writing an existing key keeps its position.
* Python `set` is a `Finset`.
* The percentage thresholds computed with Python floats (`0.6`,
  `elide_mostly_zero_pct`) are modelled as exact rationals.
* `re.match` patterns are modelled character-by-character over ASCII digits.
* The external tabular encoder `toon_format.encode` is a parameter
  `E : Value → String`; the spec's encoder contract is a hypothesis where a
  claim assumes it, and `refEncode` is a concrete encoder satisfying it.
-/

namespace MCPCondenser

/-- The value tree produced by the parsers (`classify` distinguishes exactly
these tags in the source).  `int` models Python numbers. -/
inductive Value where
  | null
  | bool (b : Bool)
  | int (n : Int)
  | str (s : String)
  | arr (elems : List Value)
  | obj (fields : List (String × Value))
deriving Repr

abbrev Fields := List (String × Value)

/-- `classify(val)` from condenser.py. -/
def classify : Value → String
  | .null => "null"
  | .bool _ => "bool"
  | .int _ => "number"
  | .str _ => "string"
  | .arr _ => "array"
  | .obj _ => "object"

def Value.isObj : Value → Bool
  | .obj _ => true
  | _ => false

def Value.isArr : Value → Bool
  | .arr _ => true
  | _ => false

mutual

/-- Python `repr` for values as they appear inside containers (strings are
quoted; escape sequences inside quoted strings are not modelled). -/
def pyRepr : Value → String
  | .null => "None"
  | .bool b => if b then "True" else "False"
  | .int n => toString n
  | .str s => "'" ++ s ++ "'"
  | .arr xs => "[" ++ String.intercalate ", " (pyReprList xs) ++ "]"
  | .obj fs => "\x7b" ++ String.intercalate ", " (pyReprFields fs) ++ "\x7d"

def pyReprList : List Value → List String
  | [] => []
  | x :: xs => pyRepr x :: pyReprList xs

def pyReprFields : List (String × Value) → List String
  | [] => []
  | (k, v) :: fs => ("'" ++ k ++ "': " ++ pyRepr v) :: pyReprFields fs

end

/-- Python `str` of a value. -/
def pyStr : Value → String
  | .str s => s
  | v => pyRepr v

/-- `fmt(val)` from condenser.py.  The float branch (`val == int(val)`) is
unreachable because numbers are modelled as integers; lists and dicts fall
through to `str(val)` as in the source. -/
def fmt : Value → String
  | .null => ""
  | .bool b => if b then "true" else "false"
  | .int n => toString n
  | .str s => s
  | v => pyStr v

/-- `fmt` applied to the result of a `dict.get` (Python `fmt(None) = ""`). -/
def fmtOpt : Option Value → String
  | none => ""
  | some v => fmt v

/-- Python `str` applied to a `dict.get` result (`str(None) = "None"`). -/
def pyStrOpt : Option Value → String
  | none => "None"
  | some v => pyStr v

/-- Dotted-key concatenation: `f"{pfx}.{k}" if pfx else k`. -/
def dotKey (pfx k : String) : String := if pfx = "" then k else pfx ++ "." ++ k

/-- The leaf sequence visited by `flatten`, in depth-first order and without
the `OrderedDict` deduplication: nested dicts are descended, everything else
(including arrays) is a leaf. -/
def objLeaves (pfx : String) : Fields → List (String × Value)
  | [] => []
  | (k, v) :: rest =>
    (match v with
     | .obj fs => objLeaves (dotKey pfx k) fs
     | _ => [(dotKey pfx k, v)]) ++ objLeaves pfx rest

/-- `out[key] = v` on a Python (ordered) dict: an existing key keeps its
position and receives the new value, a new key is appended. -/
def odUpdate (out : List (String × Value)) (k : String) (v : Value) :
    List (String × Value) :=
  if out.any (fun p => p.1 = k) then
    out.map (fun p => if p.1 = k then (k, v) else p)
  else out ++ [(k, v)]

/-- Sequentially writing a pair list into an empty ordered dict.  Merging the
recursive `flatten` results with `out.update(...)` as the source does is
equivalent to this single left-to-right pass. -/
def odFromList (ps : List (String × Value)) : List (String × Value) :=
  ps.foldl (fun out p => odUpdate out p.1 p.2) []

/-- `flatten(obj, pfx="")` from condenser.py: flatten nested dicts into
dot-notation keys; arrays are kept as-is. -/
def flatten (fs : Fields) : List (String × Value) := odFromList (objLeaves "" fs)

/-- `flatten(item)` where the pipeline guarantees `item` is a dict (every call
site is guarded by an all-dict check). -/
def flattenItem : Value → List (String × Value)
  | .obj fs => flatten fs
  | _ => []

/-- Python `d.get(k)`. -/
def getV (fl : List (String × Value)) (k : String) : Option Value :=
  (fl.find? (fun p => p.1 = k)).map (·.2)

/-- The flattened non-array keys of one item, in order (`k for k, v in
flatten(item).items() if not isinstance(v, list)`). -/
def itemKeys (item : Value) : List String :=
  (flattenItem item).filterMap (fun p => if p.2.isArr then none else some p.1)

/-- `is_homogeneous_array(arr)` from condenser.py.  The Python float
comparison `len(common) >= len(union) * 0.6` is modelled exactly as the
rational inequality `5 * |common| ≥ 3 * |union|` (the float expression agrees
with it for every realistic set size). -/
def is_homogeneous_array (arr : List Value) : Bool :=
  if arr.isEmpty || !(arr.all Value.isObj) then false
  else if arr.length < 2 then false
  else
    let union : Finset String := arr.foldl (fun u item => u ∪ (itemKeys item).toFinset) ∅
    if union.card < 2 then false
    else
      let common : Finset String := arr.foldl (fun c item => c ∩ (itemKeys item).toFinset) union
      5 * common.card ≥ 3 * union.card

/-- `union_columns(arr)` from condenser.py: all scalar (non-array) flattened
columns across all items, in first-seen order. -/
def union_columns (arr : List Value) : List String :=
  arr.foldl (fun keys item =>
    (flattenItem item).foldl (fun ks p =>
      if p.2.isArr then ks
      else if p.1 ∈ ks then ks else ks ++ [p.1]) keys) []

/-- `c.split(".")[-1].lower()`: the segment after the last dot (the whole
string when it has no dot), lowercased (`lower()` modelled on ASCII). -/
def lastSegLower (c : String) : String :=
  String.mk ((((c.data.reverse).takeWhile (fun ch => ch ≠ '.')).reverse).map Char.toLower)

/-- First element attaining the maximum of `key` (Python `max(xs, key=...)`
returns the first maximal element). -/
def argmaxFirst (key : String → Nat) : List String → Option String
  | [] => none
  | x :: xs =>
    match argmaxFirst key xs with
    | none => some x
    | some y => if key y > key x then some y else some x

/-- Distinct non-empty formatted values of a column (`_cardinality` in
`find_identity_column`). -/
def colCardinality (arr : List Value) (col : String) : Nat :=
  (((arr.map (fun item => fmtOpt (getV (flattenItem item) col))).toFinset).erase "").card

/-- `find_identity_column(cols, arr)` from condenser.py (with `arr` always
provided, as at every call site in the pipeline). -/
def find_identity_column (cols : List String) (arr : List Value) : Option String :=
  let pick (kw : String) : Option String :=
    let ms := cols.filter (fun c => lastSegLower c = kw)
    match ms with
    | [] => none
    | [c] => some c
    | _ => argmaxFirst (colCardinality arr) ms
  match pick "name" with
  | some c => some c
  | none =>
    match pick "id" with
    | some c => some c
    | none =>
      match pick "uid" with
      | some c => some c
      | none => cols.head?

/-- The identity keyword set of `order_columns`. -/
def idKwList : List String := ["name", "id", "ref", "uid", "namespace", "label", "nodename"]

def isIdCol (c : String) : Bool := idKwList.contains (lastSegLower c)

/-- `order_columns(cols)` from condenser.py: identity-keyword columns first,
then the rest, each group in original relative order. -/
def order_columns (cols : List String) : List String :=
  cols.filter isIdCol ++ cols.filter (fun c => !isIdCol c)

/-- `is_iso_ts(s)` from condenser.py: prefix match of
`\d{4}-\d{2}-\d{2}T\d{2}:\d{2}:\d{2}` (`\d` modelled as ASCII digits). -/
def is_iso_ts (s : String) : Bool :=
  match s.data with
  | y1 :: y2 :: y3 :: y4 :: '-' :: m1 :: m2 :: '-' :: d1 :: d2 :: 'T' ::
      h1 :: h2 :: ':' :: n1 :: n2 :: ':' :: s1 :: s2 :: _ =>
    y1.isDigit && y2.isDigit && y3.isDigit && y4.isDigit && m1.isDigit && m2.isDigit &&
    d1.isDigit && d2.isDigit && h1.isDigit && h2.isDigit && n1.isDigit && n2.isDigit &&
    s1.isDigit && s2.isDigit
  | _ => false

/-- A parsed `datetime`: microseconds since the epoch normalized to UTC
(a naive datetime is compared as if UTC — Python would refuse to compare
mixed naive/aware values, which the model does not reproduce) together with
the string `isoformat()` prints for it. -/
structure PyDateTime where
  micro : Int
  iso : String
deriving Repr

def digitVal (c : Char) : Nat := c.toNat - '0'.toNat

def read2 : List Char → Option (Nat × List Char)
  | a :: b :: rest =>
    if a.isDigit && b.isDigit then some (digitVal a * 10 + digitVal b, rest) else none
  | _ => none

def read4 : List Char → Option (Nat × List Char)
  | a :: b :: c :: d :: rest =>
    if a.isDigit && b.isDigit && c.isDigit && d.isDigit then
      some (((digitVal a * 10 + digitVal b) * 10 + digitVal c) * 10 + digitVal d, rest)
    else none
  | _ => none

def expectCh (c : Char) : List Char → Option (List Char)
  | x :: rest => if x = c then some rest else none
  | [] => none

def isLeap (y : Nat) : Bool := y % 4 = 0 && (y % 100 ≠ 0 || y % 400 = 0)

def daysInMonth (y m : Nat) : Nat :=
  if m = 2 then (if isLeap y then 29 else 28)
  else if m = 4 ∨ m = 6 ∨ m = 9 ∨ m = 11 then 30 else 31

/-- Days since 1970-01-01 of a civil date (y ≥ 1). -/
def daysFromCivil (y m d : Nat) : Int :=
  let y' := if m ≤ 2 then y - 1 else y
  let era := y' / 400
  let yoe := y' % 400
  let mp := if m > 2 then m - 3 else m + 9
  let doy := (153 * mp + 2) / 5 + (d - 1)
  let doe := yoe * 365 + yoe / 4 - yoe / 100 + doy
  (era * 146097 + doe : Int) - 719468

def pad (w n : Nat) : String :=
  let s := toString n
  String.mk (List.replicate (w - s.length) '0') ++ s

/-- Fractional-second digits → microseconds (at most six digits used, as in
`fromisoformat`). -/
def fracMicro (ds : List Char) : Nat :=
  let ds6 := (ds.take 6) ++ List.replicate (6 - ds.length) '0'
  ds6.foldl (fun n c => n * 10 + digitVal c) 0

/-- Parse the `YYYY-MM-DD` date part, range-checked as CPython does. -/
def parseDatePart (cs : List Char) : Option (Nat × Nat × Nat × List Char) :=
  (read4 cs).bind fun (y, cs) =>
  (expectCh '-' cs).bind fun cs =>
  (read2 cs).bind fun (mo, cs) =>
  (expectCh '-' cs).bind fun cs =>
  (read2 cs).bind fun (d, cs) =>
  if y < 1 ∨ mo < 1 ∨ mo > 12 ∨ d < 1 ∨ d > daysInMonth y mo then none
  else some (y, mo, d, cs)

/-- Parse `HH:MM:SS`, range-checked. -/
def parseTimePart (cs : List Char) : Option (Nat × Nat × Nat × List Char) :=
  (read2 cs).bind fun (h, cs) =>
  (expectCh ':' cs).bind fun cs =>
  (read2 cs).bind fun (mi, cs) =>
  (expectCh ':' cs).bind fun cs =>
  (read2 cs).bind fun (sec, cs) =>
  if h > 23 ∨ mi > 59 ∨ sec > 59 then none else some (h, mi, sec, cs)

/-- Parse an optional `.f{1..}` fractional-second part. -/
def parseFracPart (cs : List Char) : Option (Nat × List Char) :=
  match cs with
  | '.' :: rest =>
    let ds := rest.takeWhile Char.isDigit
    if ds.isEmpty then none else some (fracMicro ds, rest.dropWhile Char.isDigit)
  | _ => some (0, cs)

/-- Parse an optional `±HH:MM` UTC offset: (offset in microseconds, the text
`isoformat()` appends for it, rest). -/
def parseOffsetPart (cs : List Char) : Option (Int × String × List Char) :=
  match cs with
  | '+' :: rest =>
    (read2 rest).bind fun (oh, rest) =>
    (expectCh ':' rest).bind fun rest =>
    (read2 rest).bind fun (om, rest) =>
    if oh > 23 ∨ om > 59 then none
    else some ((oh * 3600 + om * 60 : Int) * 1000000, "+" ++ pad 2 oh ++ ":" ++ pad 2 om, rest)
  | '-' :: rest =>
    (read2 rest).bind fun (oh, rest) =>
    (expectCh ':' rest).bind fun rest =>
    (read2 rest).bind fun (om, rest) =>
    if oh > 23 ∨ om > 59 then none
    else some (-((oh * 3600 + om * 60 : Int) * 1000000), "-" ++ pad 2 oh ++ ":" ++ pad 2 om, rest)
  | _ => some ((0 : Int), "", cs)

/-- `datetime.fromisoformat` on the shapes reachable through `is_iso_ts`:
`YYYY-MM-DD` + separator + `HH:MM:SS` + optional `.f{1..}` + optional
`±HH:MM` offset (range-checked as CPython does; other CPython-accepted
shapes are outside the model). -/
def parsePyDateTime (s : String) : Option PyDateTime :=
  (parseDatePart s.data).bind fun (y, mo, d, cs) =>
  match cs with
  | [] =>
    some { micro := daysFromCivil y mo d * 86400000000,
           iso := pad 4 y ++ "-" ++ pad 2 mo ++ "-" ++ pad 2 d ++ "T00:00:00" }
  | _sep :: cs =>
    (parseTimePart cs).bind fun (h, mi, sec, cs) =>
    (parseFracPart cs).bind fun (micro, cs) =>
    (parseOffsetPart cs).bind fun (offMicro, offStr, cs) =>
    if !cs.isEmpty then none
    else
      some { micro := daysFromCivil y mo d * 86400000000
               + ((h * 3600 + mi * 60 + sec : Nat) * 1000000 + micro : Int) - offMicro,
             iso := pad 4 y ++ "-" ++ pad 2 mo ++ "-" ++ pad 2 d ++ "T" ++ pad 2 h ++ ":"
               ++ pad 2 mi ++ ":" ++ pad 2 sec
               ++ (if micro ≠ 0 then "." ++ pad 6 micro else "") ++ offStr }

/-- `parse_ts(s)` from condenser.py: `fromisoformat(s.replace("Z", "+00:00"))`,
`None` on failure. -/
def parse_ts (s : String) : Option PyDateTime :=
  parsePyDateTime (s.replace "Z" "+00:00")

/-- The per-column record built by `analyze_columns` (the source memoizes it
in a dict `info[col]`; the entry depends only on `(arr, col)`). -/
structure ColInfo where
  fmted : List String
  unique : Finset String
  is_all_zero : Bool
  is_all_null : Bool
  is_constant : Bool
  const_val : Option String
  is_timestamp : Bool
  ts_clustered : Bool
  ts_center : Option String
  raw : List (Option Value)

def minMicro (ps : List PyDateTime) : Int :=
  match ps with
  | [] => 0
  | p :: rest => rest.foldl (fun m q => min m q.micro) p.micro

def maxMicro (ps : List PyDateTime) : Int :=
  match ps with
  | [] => 0
  | p :: rest => rest.foldl (fun m q => max m q.micro) p.micro

/-- `info[col]` as computed by `analyze_columns(arr, cols)` for `col ∈ cols`. -/
def colInfo (arr : List Value) (col : String) : ColInfo :=
  let fmted := arr.map (fun item => fmtOpt (getV (flattenItem item) col))
  let unique := fmted.toFinset
  let raw := arr.map (fun item => getV (flattenItem item) col)
  let nonNull := raw.filterMap id
  let all_ts := nonNull.all (fun v => is_iso_ts (pyStr v))
  let parsed := if all_ts then nonNull.filterMap (fun v => parse_ts (pyStr v)) else []
  let ts_cluster := !parsed.isEmpty && maxMicro parsed - minMicro parsed ≤ 60000000
  let ts_center :=
    if ts_cluster then
      let sorted := parsed.mergeSort (fun a b => a.micro ≤ b.micro)
      (sorted.get? (parsed.length / 2)).map (fun p => p.iso.replace "+00:00" "Z")
    else none
  { fmted := fmted
    unique := unique
    is_all_zero := unique ⊆ {"0", "", "0.0"}
    is_all_null := unique ⊆ {""}
    is_constant := unique.card = 1
    const_val := if unique.card = 1 then some (fmted.headD "") else none
    is_timestamp := all_ts
    ts_clustered := ts_cluster
    ts_center := ts_center
    raw := raw }

/-- Core of `re.match(r"^-?\d+\.?\d*$", v)`: optional minus, one or more
digits, optional dot, zero or more digits, to the end. -/
def numericCore (cs : List Char) : Bool :=
  let cs' := match cs with | '-' :: r => r | _ => cs
  let ds := cs'.takeWhile Char.isDigit
  (!ds.isEmpty) &&
    (match cs'.dropWhile Char.isDigit with
     | [] => true
     | '.' :: rest => rest.all Char.isDigit
     | _ => false)

/-- `re.match(r"^-?\d+\.?\d*$", v) is not None`: `$` also matches just before
one trailing newline. -/
def pyNumericMatch (v : String) : Bool :=
  numericCore v.data ||
    (match v.data.getLast? with
     | some c => c = '\n' && numericCore v.data.dropLast
     | none => false)

/-- `col.rsplit(".", 1)` when the column name contains a dot: the part
before the last dot and the part after it. -/
def rsplitDot (c : String) : Option (String × String) :=
  if c.data.contains '.' then
    some (String.mk (((c.data.reverse.dropWhile (fun ch => ch ≠ '.')).drop 1).reverse),
          String.mk ((c.data.reverse.takeWhile (fun ch => ch ≠ '.')).reverse))
  else none

/-- `groups[pfx].append(col)` on an insertion-ordered dict of lists. -/
def addToGroups (gs : List (String × List String)) (p c : String) :
    List (String × List String) :=
  if gs.any (fun g => g.1 = p) then
    gs.map (fun g => if g.1 = p then (g.1, g.2 ++ [c]) else g)
  else gs ++ [(p, [c])]

/-- The `defaultdict` grouping loop of `detect_numeric_tuples`. -/
def groupByPfx (cols : List String) : List (String × List String) :=
  cols.foldl (fun gs c =>
    match rsplitDot c with
    | none => gs
    | some pl => addToGroups gs pl.1 c) []

/-- The per-member test of `detect_numeric_tuples`, with Python's operator
precedence: `(not is_timestamp and unique - {""} == set()) or all(numeric)`. -/
def tupleMemberOk (ci : ColInfo) : Bool :=
  (!ci.is_timestamp && (ci.unique.erase "").card = 0) ||
    ci.fmted.all (fun v => pyNumericMatch v || v = "")

/-- `detect_numeric_tuples(cols, col_info)` from condenser.py (`col_info` is
recomputed via `colInfo`, which the source memoizes). -/
def detect_numeric_tuples (arr : List Value) (cols : List String) :
    List (String × List String) :=
  (groupByPfx cols).filter (fun g =>
    g.2.length ≥ 3 && g.2.all (fun m => tupleMemberOk (colInfo arr m)))

/-- The `Heuristics` dataclass of condenser.py.  `elide_mostly_zero_pct` is a
Python float, modelled as an exact rational; the integer knobs are naturals
(the source never uses negative values). -/
structure Heuristics where
  elide_all_zero : Bool := true
  elide_all_null : Bool := true
  elide_timestamps : Bool := true
  elide_constants : Bool := true
  group_tuples : Bool := true
  max_tuple_size : Nat := 4
  max_table_columns : Nat := 0
  elide_mostly_zero_pct : ℚ := 0
deriving Repr

def joinComma (xs : List String) : String := String.intercalate ", " xs

/-- The elision state threaded through `preprocess_table`: the annotation
lines so far and the elided column set (insertion-ordered). -/
abbrev ElisionSt := List String × List String

/-- Step 1 of `preprocess_table`: elide all-zero columns. -/
def stageAllZero (arr : List Value) (cols : List String) (h : Heuristics)
    (st : ElisionSt) : ElisionSt :=
  if h.elide_all_zero then
    let zc := cols.filter (fun c => (colInfo arr c).is_all_zero && !(colInfo arr c).is_all_null)
    if !zc.isEmpty then (st.1 ++ ["  elided all_zero: " ++ joinComma zc], st.2 ++ zc)
    else st
  else st

/-- Step 2 of `preprocess_table`: elide all-null columns. -/
def stageAllNull (arr : List Value) (cols : List String) (h : Heuristics)
    (st : ElisionSt) : ElisionSt :=
  if h.elide_all_null then
    let nc := cols.filter (fun c => (colInfo arr c).is_all_null && !st.2.contains c)
    if !nc.isEmpty then (st.1 ++ ["  elided all_null: " ++ joinComma nc], st.2 ++ nc)
    else st
  else st

/-- Row label for the mostly-zero outlier list: the identity column's
formatted value, or the row index when there is no (truthy) identity column. -/
def mostlyZeroLabel (arr : List Value) (idCol : Option String) (i : Nat) : String :=
  match idCol with
  | some c => if c ≠ "" then fmtOpt (getV (flattenItem (arr.getD i Value.null)) c) else toString i
  | none => toString i

/-- Step 2.5 of `preprocess_table`: threshold-based mostly-zero elision. -/
def stageMostlyZero (arr : List Value) (cols : List String) (h : Heuristics)
    (st : ElisionSt) : ElisionSt :=
  if h.elide_mostly_zero_pct > 0 then
    let idCol := find_identity_column cols arr
    cols.foldl (fun st c =>
      let ci := colInfo arr c
      if st.2.contains c || ci.is_all_zero || ci.is_all_null then st
      else
        let fmted := ci.fmted
        let nTotal := fmted.length
        if nTotal = 0 then st
        else
          let nZero := (fmted.filter (fun v => v = "0" || v = "")).length
          if (nZero : ℚ) / (nTotal : ℚ) ≥ h.elide_mostly_zero_pct then
            let nonZero := (fmted.enum.filter (fun p => !(p.2 = "0" || p.2 = ""))).map
              (fun p => mostlyZeroLabel arr idCol p.1 ++ "=" ++ p.2)
            let ann :=
              if !nonZero.isEmpty then
                "  elided mostly_zero: " ++ c ++ " (non-zero: " ++ joinComma nonZero ++ ")"
              else "  elided mostly_zero: " ++ c
            (st.1 ++ [ann], st.2 ++ [c])
          else st) st
  else st

/-- Step 3 of `preprocess_table`: elide clustered-timestamp columns. -/
def stageTimestamps (arr : List Value) (cols : List String) (h : Heuristics)
    (st : ElisionSt) : ElisionSt :=
  if h.elide_timestamps then
    cols.foldl (fun st c =>
      if st.2.contains c then st
      else
        let ci := colInfo arr c
        if ci.ts_clustered && ci.is_constant then
          (st.1 ++ ["  elided constant " ++ c ++ ": " ++ ci.const_val.getD ""], st.2 ++ [c])
        else if ci.ts_clustered then
          let center :=
            match ci.ts_center with
            | some s => if s = "" then pyStrOpt (ci.raw.headD none) else s
            | none => pyStrOpt (ci.raw.headD none)
          (st.1 ++ ["  elided timestamp_cluster " ++ c ++ ": ~" ++ center ++ " (within 60s)"],
           st.2 ++ [c])
        else st) st
  else st

/-- Step 4 of `preprocess_table`: elide the remaining constant columns. -/
def stageConstants (arr : List Value) (cols : List String) (h : Heuristics)
    (st : ElisionSt) : ElisionSt :=
  if h.elide_constants then
    cols.foldl (fun st c =>
      let ci := colInfo arr c
      if !st.2.contains c && ci.is_constant && !ci.is_all_zero && !ci.is_all_null then
        (st.1 ++ ["  elided constant " ++ c ++ ": " ++ ci.const_val.getD ""], st.2 ++ [c])
      else st) st
  else st

/-- Steps 1–4 composed, starting from no annotations and nothing elided. -/
def preElided (arr : List Value) (cols : List String) (h : Heuristics) : ElisionSt :=
  stageConstants arr cols h
    (stageTimestamps arr cols h
      (stageMostlyZero arr cols h
        (stageAllNull arr cols h
          (stageAllZero arr cols h ([], [])))))

/-- The synthesized tuple header `prefix(leaf1,leaf2,...)`. -/
def tupleHeader (p : String) (live : List String) : String :=
  p ++ "(" ++ String.intercalate "," (live.map (fun m => ((rsplitDot m).map (·.2)).getD "")) ++ ")"

/-- Step 5 of `preprocess_table`: `tuple_map`, the kept tuple groups with
their synthesized headers (the conditional-append loop of the source written
as a `filterMap`). -/
def buildTupleMap (arr : List Value) (remaining : List String) (h : Heuristics)
    (elided : List String) : List (String × List String) :=
  (if h.group_tuples then detect_numeric_tuples arr remaining else []).filterMap (fun g =>
    let live := g.2.filter (fun m => !elided.contains m)
    if live.length ≥ 3 && live.length ≤ h.max_tuple_size then
      some (tupleHeader g.1 live, live)
    else none)

/-- One iteration of the final-column loop (step 6 of `preprocess_table`):
state is `(final, seen)`. -/
def bfStep (elided : List String) (tupleMap : List (String × List String))
    (tupleMembers : List String)
    (st : List (String × List String) × List String) (c : String) :
    List (String × List String) × List String :=
  if elided.contains c || st.2.contains c then st
  else if tupleMembers.contains c then
    match tupleMap.find? (fun g => g.2.contains c && !st.2.contains g.1) with
    | some g => (st.1 ++ [g], st.2 ++ [g.1] ++ g.2)
    | none => st
  else (st.1 ++ [(c, [c])], st.2 ++ [c])

/-- Step 6 of `preprocess_table`: the final `(header, source columns)` list
before the width cap. -/
def buildFinal (cols : List String) (elided : List String)
    (tupleMap : List (String × List String)) : List (String × List String) :=
  (cols.foldl (bfStep elided tupleMap (tupleMap.flatMap (·.2))) ([], [])).1

/-- Step 6.5 of `preprocess_table`: cap the table width, annotating the
overflow columns dropped from the right. -/
def capColumns (h : Heuristics) (anns : List String)
    (final : List (String × List String)) :
    List String × List (String × List String) :=
  if h.max_table_columns > 0 && final.length > h.max_table_columns then
    let kept := final.take h.max_table_columns
    let overflow := final.drop h.max_table_columns
    let names := overflow.map (·.1)
    (anns ++ ["  elided overflow (" ++ toString names.length
        ++ " columns exceed limit): " ++ joinComma names], kept)
  else (anns, final)

/-- Step 7 of `preprocess_table`: one cleaned row (a missing or null source
value becomes `""`; a tuple group is comma-joined). -/
def cleanedRow (fl : List (String × Value)) (final : List (String × List String)) :
    List (String × Value) :=
  final.map (fun hs =>
    match hs.2 with
    | [s] =>
      (hs.1, match getV fl s with
        | none => Value.str ""
        | some v => v)
    | srcs => (hs.1, Value.str (String.intercalate "," (srcs.map (fun s => fmtOpt (getV fl s))))))

/-- `preprocess_table(name, arr, heuristics)` from condenser.py (the `name`
parameter is unused by the source function and omitted).  Returns
`(annotations, cleaned rows, final columns)`. -/
def preprocess_table (arr : List Value) (h : Heuristics) :
    List String × List (List (String × Value)) × List (String × List String) :=
  let cols := order_columns (union_columns arr)
  let st := preElided arr cols h
  let remaining := cols.filter (fun c => !st.2.contains c)
  let tm := buildTupleMap arr remaining h st.2
  let preFinal := buildFinal cols st.2 tm
  let capped := capColumns h st.1 preFinal
  (capped.1, arr.map (fun item => cleanedRow (flattenItem item) capped.2), capped.2)

def hexDigit (n : Nat) : Char :=
  if n < 10 then Char.ofNat ('0'.toNat + n) else Char.ofNat ('a'.toNat + n - 10)

def hex4 (n : Nat) : String :=
  String.mk [hexDigit (n / 4096 % 16), hexDigit (n / 256 % 16),
             hexDigit (n / 16 % 16), hexDigit (n % 16)]

/-- One character under `json.dumps` default (`ensure_ascii=True`) escaping. -/
def jsonEscapeChar (c : Char) : String :=
  if c = '"' then "\\\""
  else if c = '\\' then "\\\\"
  else if c = '\n' then "\\n"
  else if c = '\t' then "\\t"
  else if c = '\r' then "\\r"
  else if c.toNat = 8 then "\\b"
  else if c.toNat = 12 then "\\f"
  else if c.toNat < 32 then "\\u" ++ hex4 c.toNat
  else if c.toNat < 127 then String.singleton c
  else if c.toNat < 65536 then "\\u" ++ hex4 c.toNat
  else
    let n := c.toNat - 65536
    "\\u" ++ hex4 (55296 + n / 1024) ++ "\\u" ++ hex4 (56320 + n % 1024)

def jsonEscape (s : String) : String := String.join (s.data.map jsonEscapeChar)

mutual

/-- `json.dumps(v)` with the default separators and `ensure_ascii=True`. -/
def jsonDumps : Value → String
  | .null => "null"
  | .bool b => if b then "true" else "false"
  | .int n => toString n
  | .str s => "\"" ++ jsonEscape s ++ "\""
  | .arr xs => "[" ++ String.intercalate ", " (jsonDumpsList xs) ++ "]"
  | .obj fs => "\x7b" ++ String.intercalate ", " (jsonDumpsFields fs) ++ "\x7d"

def jsonDumpsList : List Value → List String
  | [] => []
  | x :: xs => jsonDumps x :: jsonDumpsList xs

def jsonDumpsFields : List (String × Value) → List String
  | [] => []
  | (k, v) :: fs => ("\"" ++ jsonEscape k ++ "\": " ++ jsonDumps v) :: jsonDumpsFields fs

end

/-- `render_scalars(name, flat)` from condenser.py, over the abstract tabular
encoder `E`. -/
def render_scalars (E : Value → String) (name : String)
    (flat : List (String × Value)) : String :=
  "--- " ++ name ++ " (scalars) ---" ++ "\n" ++ E (Value.obj flat)

/-- Cleaned rows as the value handed to the tabular encoder. -/
def rowsValue (rows : List (List (String × Value))) : Value :=
  Value.arr (rows.map Value.obj)

/-- `b.foldl`-style Python `a.update(b)` on ordered dicts. -/
def odMerge (a b : List (String × Value)) : List (String × Value) :=
  b.foldl (fun acc p => odUpdate acc p.1 p.2) a

/-- `fmt(fl.get(id_col, "")) if id_col else ""` (Python truthiness: `None`
and `""` are falsy). -/
def parentIdOf (fl : List (String × Value)) (idCol : Option String) : String :=
  match idCol with
  | some c => if c ≠ "" then fmt ((getV fl c).getD (Value.str "")) else ""
  | none => ""

/-- `f"_parent.{id_col}"`. -/
def parentKeyOf (idCol : Option String) : String :=
  "_parent." ++ (match idCol with | some c => c | none => "None")

/-- The sub-item collection loop of `render_table`: every dict element of the
`af` array field of every row, flattened and tagged with the parent id. -/
def collectSubItems (arr : List Value) (idCol : Option String) (af : String) :
    List (List (String × Value)) :=
  arr.flatMap (fun item =>
    let fl := flattenItem item
    let pid := parentIdOf fl idCol
    match getV fl af with
    | some (Value.arr subs) =>
      subs.filterMap (fun sub =>
        match sub with
        | Value.obj sfs => some (odMerge [(parentKeyOf idCol, Value.str pid)] (flatten sfs))
        | _ => none)
    | _ => [])

/-- The homogeneity-like overlap check on collected sub-items (union and
intersection of their non-array keys; at least 2 common keys). -/
def subCommonOK (subItems : List (List (String × Value))) : Bool :=
  let keysOf := fun (si : List (String × Value)) =>
    (si.filterMap (fun p => if p.2.isArr then none else some p.1)).toFinset
  let u : Finset String := subItems.foldl (fun u si => u ∪ keysOf si) ∅
  let c : Finset String := subItems.foldl (fun c si => c ∩ keysOf si) u
  c.card ≥ 2

/-- Deduplicate (keeping first occurrences) then sort — Python
`sorted(<set>)`. -/
def sortedDedup (xs : List String) : List String :=
  (xs.foldl (fun acc x => if acc.contains x then acc else acc ++ [x]) []).mergeSort
    (fun a b => a ≤ b)

/-- The array-valued flattened fields across all rows, `sorted(array_fields)`. -/
def arrayFieldsOf (arr : List Value) : List String :=
  sortedDedup ((arr.map flattenItem).flatMap (fun fl =>
    fl.filterMap (fun p => if p.2.isArr then some p.1 else none)))

/-- One rendered block: header line, annotation lines, encoded body. -/
def tableBlock (header : String) (anns : List String) (body : String) : String :=
  String.intercalate "\n" (header :: (anns ++ [body]))

/-- `render_table(name, arr, heuristics)` from condenser.py over the abstract
encoder `E`: the parent block followed by one block per extracted sub-table. -/
def render_table (E : Value → String) (name : String) (arr : List Value)
    (h : Heuristics) : List String :=
  if arr.isEmpty then ["--- " ++ name ++ " ---\n(empty)"]
  else
    let scalarCols := order_columns (union_columns arr)
    let idCol := find_identity_column scalarCols arr
    let subTables := (arrayFieldsOf arr).filterMap (fun af =>
      let subItems := collectSubItems arr idCol af
      if subItems.length ≥ 2 && subCommonOK subItems then some (af, subItems) else none)
    let pt := preprocess_table arr h
    let parentBlock := tableBlock ("--- " ++ name ++ " (" ++ toString arr.length ++ " rows) ---")
      pt.1 (E (rowsValue pt.2.1))
    parentBlock :: subTables.map (fun afSub =>
      let subName := name ++ "." ++ afSub.1
      let spt := preprocess_table (afSub.2.map Value.obj) h
      tableBlock ("--- " ++ subName ++ " (" ++ toString afSub.2.length ++ " rows) ---")
        spt.1 (E (rowsValue spt.2.1)))

lemma mem_odUpdate {out : List (String × Value)} {k : String} {v : Value}
    {p : String × Value} (hp : p ∈ odUpdate out k v) : p ∈ out ∨ p = (k, v) := by
  unfold odUpdate at hp
  split at hp
  · rcases List.mem_map.mp hp with ⟨q, hq, hqe⟩
    by_cases hk : q.1 = k
    · simp [hk] at hqe
      exact Or.inr hqe.symm
    · simp [hk] at hqe
      exact Or.inl (hqe ▸ hq)
  · rcases List.mem_append.mp hp with hl | hr
    · exact Or.inl hl
    · simp at hr
      exact Or.inr hr

lemma mem_of_mem_odFold {l : List (String × Value)} {acc : List (String × Value)}
    {p : String × Value}
    (hp : p ∈ l.foldl (fun out q => odUpdate out q.1 q.2) acc) : p ∈ acc ∨ p ∈ l := by
  induction l generalizing acc with
  | nil => exact Or.inl hp
  | cons q rest ih =>
    rcases ih hp with hacc | hrest
    · rcases mem_odUpdate hacc with h1 | h2
      · exact Or.inl h1
      · exact Or.inr (by simp [h2])
    · exact Or.inr (List.mem_cons_of_mem _ hrest)

lemma mem_of_mem_odFromList {l : List (String × Value)} {p : String × Value}
    (hp : p ∈ odFromList l) : p ∈ l := by
  rcases @mem_of_mem_odFold l [] p hp with h | h
  · simp at h
  · exact h

lemma sizeOf_lt_of_mem_objLeaves {p : String × Value} :
    ∀ {pfx : String} {fs : Fields}, p ∈ objLeaves pfx fs → sizeOf p.2 < sizeOf fs := by
  intro pfx fs
  induction pfx, fs using objLeaves.induct with
  | case1 pfx =>
    intro hp
    simp [objLeaves] at hp
  | case2 pfx k v rest ih2 ih1 =>
    intro hp
    cases v with
    | obj fs2 =>
      simp only [objLeaves] at hp
      rcases List.mem_append.mp hp with hh | ht
      · have h := ih2 hh
        simp only [List.cons.sizeOf_spec, Prod.mk.sizeOf_spec, Value.obj.sizeOf_spec]
        omega
      · have h := ih1 ht
        simp only [List.cons.sizeOf_spec]
        omega
    | null =>
      simp only [objLeaves] at hp
      rcases List.mem_append.mp hp with hh | ht
      · simp only [List.mem_singleton] at hh
        subst hh
        simp only [List.cons.sizeOf_spec, Prod.mk.sizeOf_spec]
        omega
      · have h := ih1 ht
        simp only [List.cons.sizeOf_spec]
        omega
    | bool b =>
      simp only [objLeaves] at hp
      rcases List.mem_append.mp hp with hh | ht
      · simp only [List.mem_singleton] at hh
        subst hh
        simp only [List.cons.sizeOf_spec, Prod.mk.sizeOf_spec]
        omega
      · have h := ih1 ht
        simp only [List.cons.sizeOf_spec]
        omega
    | int n =>
      simp only [objLeaves] at hp
      rcases List.mem_append.mp hp with hh | ht
      · simp only [List.mem_singleton] at hh
        subst hh
        simp only [List.cons.sizeOf_spec, Prod.mk.sizeOf_spec]
        omega
      · have h := ih1 ht
        simp only [List.cons.sizeOf_spec]
        omega
    | str s =>
      simp only [objLeaves] at hp
      rcases List.mem_append.mp hp with hh | ht
      · simp only [List.mem_singleton] at hh
        subst hh
        simp only [List.cons.sizeOf_spec, Prod.mk.sizeOf_spec]
        omega
      · have h := ih1 ht
        simp only [List.cons.sizeOf_spec]
        omega
    | arr xs =>
      simp only [objLeaves] at hp
      rcases List.mem_append.mp hp with hh | ht
      · simp only [List.mem_singleton] at hh
        subst hh
        simp only [List.cons.sizeOf_spec, Prod.mk.sizeOf_spec]
        omega
      · have h := ih1 ht
        simp only [List.cons.sizeOf_spec]
        omega

lemma sizeOf_lt_of_mem_flatten {fs : Fields} {p : String × Value}
    (hp : p ∈ flatten fs) : sizeOf p.2 < sizeOf fs :=
  sizeOf_lt_of_mem_objLeaves (mem_of_mem_odFromList hp)

lemma snd_mem_of_mem_enumFrom {α : Type _} :
    ∀ {l : List α} {n : Nat} {p : Nat × α}, p ∈ List.enumFrom n l → p.2 ∈ l := by
  intro l
  induction l with
  | nil => intro n p hp; simp [List.enumFrom] at hp
  | cons x rest ih =>
    intro n p hp
    rw [List.enumFrom] at hp
    rcases List.mem_cons.mp hp with h | h
    · simp [h]
    · exact List.mem_cons_of_mem _ (ih h)

lemma snd_mem_of_mem_enum {α : Type _} {l : List α} {p : Nat × α}
    (hp : p ∈ l.enum) : p.2 ∈ l := snd_mem_of_mem_enumFrom hp

/-- `condense(name, obj, heuristics)` from condenser.py over the abstract
encoder `E`: scalars print as `name: value` lines, objects split flattened
scalars from array children, arrays render as tables when homogeneous,
recurse per-item when the first element is a dict, and fall back to
`json.dumps` otherwise. -/
def condense (E : Value → String) (name : String) (v : Value) (h : Heuristics) :
    List String :=
  match v with
  | .null => [name ++ ": " ++ fmt .null]
  | .bool b => [name ++ ": " ++ fmt (.bool b)]
  | .int n => [name ++ ": " ++ fmt (.int n)]
  | .str s => [name ++ ": " ++ fmt (.str s)]
  | .obj fields =>
    let fl := flatten fields
    let scalars := fl.filter (fun p => !p.2.isArr)
    let scalarBlocks := if !scalars.isEmpty then [render_scalars E name scalars] else []
    let arrBlocks := (fl.filter (fun p => p.2.isArr)).attach.flatMap (fun ap =>
      let an := if name = "" then ap.1.1 else name ++ "." ++ ap.1.1
      match hv : ap.1.2 with
      | .arr elems =>
        if is_homogeneous_array elems then render_table E an elems h
        else
          match helems : elems with
          | [] => [an ++ ": " ++ jsonDumps (.arr [])]
          | e0 :: _ =>
            if e0.isObj then
              elems.enum.attach.flatMap (fun ip =>
                condense E (an ++ "[" ++ toString ip.1.1 ++ "]") ip.1.2 h)
            else [an ++ ": " ++ jsonDumps (.arr elems)]
      | _ => [])
    scalarBlocks ++ arrBlocks
  | .arr elems =>
    if is_homogeneous_array elems then render_table E name elems h
    else
      match helems : elems with
      | [] => [name ++ ": " ++ jsonDumps (.arr [])]
      | e0 :: _ =>
        if e0.isObj then
          elems.enum.attach.flatMap (fun ip =>
            condense E (name ++ "[" ++ toString ip.1.1 ++ "]") ip.1.2 h)
        else [name ++ ": " ++ jsonDumps (.arr elems)]
termination_by sizeOf v
decreasing_by
  · have h1 : ap.1 ∈ flatten fields := (List.mem_filter.mp ap.2).1
    have h2 : sizeOf ap.1.2 < sizeOf fields := sizeOf_lt_of_mem_flatten h1
    have h4 := List.sizeOf_lt_of_mem (snd_mem_of_mem_enum ip.2)
    have h5 := congrArg sizeOf helems
    rw [hv] at h2
    simp only [Value.arr.sizeOf_spec] at h2
    simp only [Value.obj.sizeOf_spec]
    omega
  · have h4 := List.sizeOf_lt_of_mem (snd_mem_of_mem_enum ip.2)
    have h5 := congrArg sizeOf helems
    simp only [Value.arr.sizeOf_spec]
    omega

/-- `_is_scalar_line(block)` from condenser.py. -/
def is_scalar_line (block : String) : Bool :=
  !(block.contains '\n') && !(block.startsWith "---")

/-- `_join_blocks(blocks)` from condenser.py: consecutive scalar lines are
grouped with single newlines, groups and other blocks joined by blank lines. -/
def join_blocks (blocks : List String) : String :=
  if blocks.isEmpty then ""
  else
    let st := blocks.foldl (fun (st : List String × List String) block =>
      if is_scalar_line block then (st.1, st.2 ++ [block])
      else
        let parts := if !st.2.isEmpty then st.1 ++ [String.intercalate "\n" st.2] else st.1
        (parts ++ [block], [])) ([], [])
    let parts := if !st.2.isEmpty then st.1 ++ [String.intercalate "\n" st.2] else st.1
    String.intercalate "\n\n" parts

/-- `condense_json(data, heuristics)` from condenser.py over the abstract
encoder `E`.  A parsed top-level dict has unique keys, so iterating
`(k, data[k])` is iterating the field list. -/
def condense_json (E : Value → String) (data : Value) (h : Heuristics) : String :=
  match data with
  | .obj fields => join_blocks (fields.flatMap (fun kv => condense E kv.1 kv.2 h))
  | _ => join_blocks (condense E "root" data h)

mutual

/-- A concrete reference tabular encoder satisfying the spec's encoder
contract: every scalar's formatted form appears in the output. -/
def refEncode : Value → String
  | .null => ""
  | .bool b => if b then "true" else "false"
  | .int n => toString n
  | .str s => s
  | .arr xs => String.intercalate "\n" (refEncodeList xs)
  | .obj fs => String.intercalate "\n" (refEncodeFields fs)

def refEncodeList : List Value → List String
  | [] => []
  | x :: xs => refEncode x :: refEncodeList xs

def refEncodeFields : List (String × Value) → List String
  | [] => []
  | (k, v) :: fs => (k ++ ": " ++ refEncode v) :: refEncodeFields fs

end

/-- Python slicing `text[:n]` (by code points). -/
def strTake (s : String) (n : Nat) : String := String.mk (s.data.take n)

/-- `count_tokens` from condenser.py in its in-source deterministic form,
`len(text) // 4` (the tiktoken path binds an external library). -/
def count_tokens (text : String) : Nat := text.length / 4

/-- The truncation notice template of `truncate_to_token_limit`. -/
def truncNotice (maxTokens origTokens finalTokens : Nat) : String :=
  "\n\n[truncated: output exceeded " ++ toString maxTokens ++ " token limit — "
    ++ toString origTokens ++ " tokens reduced to ~" ++ toString finalTokens ++ "]"

/-- The binary search of `truncate_to_token_limit`: largest `m` in `[lo, hi]`
reachable by the loop with `f m ≤ target`. -/
def bsearchPfx (f : Nat → Nat) (target lo hi : Nat) : Nat :=
  if _h : lo < hi then
    let mid := (lo + hi + 1) / 2
    if f mid ≤ target then bsearchPfx f target mid hi
    else bsearchPfx f target lo (mid - 1)
  else lo
termination_by hi - lo
decreasing_by
  · omega
  · omega

/-- `truncate_to_token_limit(text, max_tokens)` from condenser.py (token
counting by the in-source `len // 4` fallback; `max_tokens ≤ 0` is the `= 0`
case of the natural-number model). -/
def truncate_to_token_limit (text : String) (maxTokens : Nat) : String :=
  if maxTokens = 0 then text
  else
    let origTokens := count_tokens text
    if origTokens ≤ maxTokens then text
    else
      let noticeOverhead := count_tokens (truncNotice maxTokens origTokens maxTokens)
      let target := if maxTokens ≤ noticeOverhead then 1 else maxTokens - noticeOverhead
      let lo := bsearchPfx (fun m => count_tokens (strTake text m)) target 0 text.length
      let truncated := strTake text lo
      let finalTokens := count_tokens truncated + noticeOverhead
      truncated ++ truncNotice maxTokens origTokens finalTokens

/-- A registry entry from parsers.py: `try_parse` returns `(data, name)` or
`None`; `normalize` is an optional post-parse transform.  The payload type is
abstract — the built-in parsers bind external parsing libraries. -/
structure Parser (α : Type) where
  name : String
  tryParse : String → Option (α × String)
  normalize : Option (α → α) := none

/-- Apply the parser's `normalize` to the parsed data, as `parse_input` does
on success. -/
def applyNormalize {α : Type} (p : Parser α) (r : α × String) : α × String :=
  match p.normalize with
  | some f => (f r.1, r.2)
  | none => r

/-- The full-registry scan of `parse_input`, skipping every parser whose name
equals the (already tried) hint. -/
def scanRegistry {α : Type} (skip : Option String) (text : String) :
    List (Parser α) → Option (α × String)
  | [] => none
  | p :: rest =>
    if skip = some p.name then scanRegistry skip text rest
    else
      match p.tryParse text with
      | some r => some (applyNormalize p r)
      | none => scanRegistry skip text rest

/-- The hinted-parser attempt of `parse_input`: the first registered parser
named like the hint, when there is one, applied to the text. -/
def hintedResult {α : Type} (registry : List (Parser α)) (text : String) :
    Option String → Option (α × String)
  | none => none
  | some hint =>
    match registry.find? (fun p => p.name = hint) with
    | none => none
    | some p => (p.tryParse text).map (applyNormalize p)

/-- `parse_input(text, format_hint=...)` from parsers.py over a registry:
the hinted parser (first with that name) is tried first; on failure or an
unknown hint the registry is scanned in order, skipping parsers named like
the hint; `ValueError` becomes the `Except.error` case. -/
def parse_input {α : Type} (registry : List (Parser α)) (text : String)
    (format_hint : Option String) : Except String (α × String) :=
  match hintedResult registry text format_hint with
  | some r => .ok r
  | none =>
    match scanRegistry format_hint text registry with
    | some r => .ok r
    | none => .error ("Input is not valid " ++ joinComma (registry.map (·.name)))

/-- The fields of `config.ServerConfig` that `_condense_item` consults. -/
structure ServerConfig where
  tools : Option (List String)
  toon_only_tools : List String
  toon_fallback : Bool
  min_token_threshold : Nat
  revert_if_larger : Bool

/-- The governor's outcome for one text item: the modes recorded by
`_condense_item` via `record_request`, or the condensed text and its mode. -/
inductive Outcome where
  | passthrough
  | skipped
  | reverted
  | condensed (text : String) (mode : String)
deriving Repr, DecidableEq

/-- `cfg.tools is None or base_name in cfg.tools`. -/
def toolAllowed (cfg : ServerConfig) (baseName : String) : Bool :=
  match cfg.tools with
  | none => true
  | some ts => ts.contains baseName

/-- `CondenserMiddleware._condense_item` from proxy.py.  The parse result is
passed in (`none` models the `ValueError` path); `toonEncode` and
`condenseText` abstract `toon_encode` and `condense_text` (referenced by
proxy.py but absent from the source tree), already closed over the effective
heuristics; `countTokens` abstracts the pluggable token counter.  Returning
`Outcome.passthrough`/`.skipped`/`.reverted` models `return None` together
with the metrics label the source records (the caller leaves `item.text`
unchanged in those cases). -/
def condense_item (countTokens : String → Nat) (toonEncode condenseText : Value → String)
    (parsed : Option Value) (text baseName : String) (cfg : ServerConfig) : Outcome :=
  match parsed with
  | none => .passthrough
  | some data =>
    let origTokens := countTokens text
    if cfg.min_token_threshold > 0 && origTokens < cfg.min_token_threshold then .skipped
    else
      let attempt : Option (String × String) :=
        if cfg.toon_only_tools.contains baseName then some (toonEncode data, "toon_only")
        else if toolAllowed cfg baseName then some (condenseText data, "condense")
        else if cfg.toon_fallback then some (toonEncode data, "toon_fallback")
        else none
      match attempt with
      | none => .passthrough
      | some tm =>
        if cfg.revert_if_larger && countTokens tm.1 ≥ origTokens then .reverted
        else .condensed tm.1 tm.2

/-- Modelled from the spec: `is_kv_array(arr)` — absent from the source tree
(only its tests and `pivot_kv_fields` reference it): the array is non-empty
and every element is an Object with exactly the keys Key and Value, Key a
String. -/
def is_kv_array (arr : List Value) : Bool :=
  !arr.isEmpty && arr.all fun e =>
    match e with
    | .obj [("Key", .str _), ("Value", _)] => true
    | .obj [("Value", _), ("Key", .str _)] => true
    | _ => false

/-- The Key of one KV element (on the shapes `is_kv_array` accepts). -/
def kvKeyOf (e : Value) : Option String :=
  match e with
  | .obj [("Key", .str k), ("Value", _)] => some k
  | .obj [("Value", _), ("Key", .str k)] => some k
  | _ => none

/-- The Value of one KV element. -/
def kvValueOf (e : Value) : Option Value :=
  match e with
  | .obj [("Key", .str _), ("Value", v)] => some v
  | .obj [("Value", v), ("Key", .str _)] => some v
  | _ => none

/-- The top-level fields of a row object. -/
def topFields : Value → Fields
  | .obj fs => fs
  | _ => []

/-- Modelled from the spec: the union of Key strings of field `f` across all
rows, in first-seen order. -/
def kvKeys (rows : List Value) (f : String) : List String :=
  rows.foldl (fun ks r =>
    match getV (topFields r) f with
    | some (.arr elems) =>
      elems.foldl (fun ks e =>
        match kvKeyOf e with
        | some k => if ks.contains k then ks else ks ++ [k]
        | none => ks) ks
    | _ => ks) []

/-- The Value paired with Key `k` in a KV array (first match; `""` — the
spec's "empty" — when absent). -/
def kvLookup (elems : List Value) (k : String) : Value :=
  match elems.find? (fun e => kvKeyOf e = some k) with
  | some e => (kvValueOf e).getD (.str "")
  | none => .str ""

/-- Modelled from the spec: field `f` is a KVArray in every row. -/
def kvPivotable (rows : List Value) (f : String) : Bool :=
  !rows.isEmpty && rows.all fun r =>
    match getV (topFields r) f with
    | some (.arr elems) => is_kv_array elems
    | _ => false

/-- Modelled from the spec: pivot field `f` of one row — replace the array
entry, in place, by one `f.<Key>` column per Key. -/
def pivotRow (keys : List String) (f : String) (r : Value) : Value :=
  match r with
  | .obj fs => .obj (fs.flatMap fun kv =>
      if kv.1 = f then
        match kv.2 with
        | .arr elems => keys.map (fun k => (f ++ "." ++ k, kvLookup elems k))
        | _ => [kv]
      else [kv])
  | v => v

/-- The first-seen top-level field names across rows. -/
def topFieldNames (rows : List Value) : List String :=
  rows.foldl (fun ns r => (topFields r).foldl (fun ns kv =>
    if ns.contains kv.1 then ns else ns ++ [kv.1]) ns) []

/-- Modelled from the spec: `pivot_kv_fields(rows)` — lift every field that
is a KVArray in every row into `<field>.<Key>` parent columns. -/
def pivot_kv_fields (rows : List Value) : List Value :=
  ((topFieldNames rows).filter (kvPivotable rows)).foldl
    (fun rs f => rs.map (pivotRow (kvKeys rs f) f)) rows

/-- Modelled from the spec: `render_table` with the `pivot_key_value`
heuristic — the KV-pivot pre-pass runs on the row objects before
homogeneous-array processing. -/
def render_table_kv (E : Value → String) (pivot_key_value : Bool) (name : String)
    (rows : List Value) (h : Heuristics) : List String :=
  render_table E name (if pivot_key_value then pivot_kv_fields rows else rows) h

/-- Claim-side reading of the key union of an array of objects: the union of
the flattened non-array keys of the elements. -/
def unionKeys (arr : List Value) : Finset String :=
  arr.foldr (fun item u => (itemKeys item).toFinset ∪ u) ∅

/-- Claim-side reading of the key intersection: the keys of the union present
in every element. -/
def commonKeys (arr : List Value) : Finset String :=
  (unionKeys arr).filter (fun k => ∀ item ∈ arr, k ∈ itemKeys item)

/-- `order_columns(union_columns(arr))`, the column list of a table. -/
def tableCols (arr : List Value) : List String := order_columns (union_columns arr)

/-- The elided column set of a table after steps 1-4. -/
def elidedSet (arr : List Value) (h : Heuristics) : List String :=
  (preElided arr (tableCols arr) h).2

/-- The tuple map of a table (step 5). -/
def tableTupleMap (arr : List Value) (h : Heuristics) : List (String × List String) :=
  buildTupleMap arr ((tableCols arr).filter (fun c => !(elidedSet arr h).contains c)) h
    (elidedSet arr h)

/-- The final column list of a table before the width cap (step 6). -/
def preCapFinal (arr : List Value) (h : Heuristics) : List (String × List String) :=
  buildFinal (tableCols arr) (elidedSet arr h) (tableTupleMap arr h)

/-- A concrete parser for instantiating the registry theorems. -/
def testParserJson : Parser Nat :=
  { name := "json", tryParse := fun t => if t = "j" then some (1, "json") else none }

/-- A second concrete parser (never succeeds). -/
def testParserYaml : Parser Nat :=
  { name := "yaml", tryParse := fun t => if t = "y" then some (2, "yaml") else none }

/-- A concrete two-entry registry. -/
def testRegistry : List (Parser Nat) := [testParserJson, testParserYaml]

/-- A concrete server configuration for instantiating the governor theorem. -/
def testCfg : ServerConfig :=
  { tools := some ["alpha", "beta"], toon_only_tools := ["beta"], toon_fallback := true,
    min_token_threshold := 2, revert_if_larger := true }

/-- A concrete two-row table with one identity column and two data columns,
none elidable, for instantiating the column-cap theorem. -/
def capArr : List Value :=
  [Value.obj [("name", Value.str "a"), ("b", Value.int 1), ("c", Value.int 2)],
   Value.obj [("name", Value.str "d"), ("b", Value.int 3), ("c", Value.int 4)]]

/-- Heuristics capping the table at two columns (tuple grouping off). -/
def capH : Heuristics := { max_table_columns := 2, group_tuples := false }

/-- A concrete two-row table with a three-member numeric sibling group
`v.x, v.y, v.z` and one string column, for instantiating the tuple-grouping
theorem. -/
def tupArr : List Value :=
  [Value.obj [("v.x", Value.int 1), ("v.y", Value.int 2), ("v.z", Value.int 3),
              ("s", Value.str "q")],
   Value.obj [("v.x", Value.int 4), ("v.y", Value.int 5), ("v.z", Value.int 6),
              ("s", Value.str "r")]]

/-- The column list of `tupArr`. -/
def tupCols : List String := ["v.x", "v.y", "v.z", "s"]

/-- The S2 rows: two EC2-style instances with KV tag arrays. -/
def s2Rows : List Value :=
  [Value.obj [("InstanceId", Value.str "i-aaa"),
     ("Tags", Value.arr
       [Value.obj [("Key", Value.str "Name"), ("Value", Value.str "web")],
        Value.obj [("Key", Value.str "Env"), ("Value", Value.str "prod")]])],
   Value.obj [("InstanceId", Value.str "i-bbb"),
     ("Tags", Value.arr
       [Value.obj [("Key", Value.str "Name"), ("Value", Value.str "api")],
        Value.obj [("Key", Value.str "Env"), ("Value", Value.str "staging")]])]]

/-- The S2 rows after the KV pivot: tags lifted to `Tags.<Key>` columns. -/
def s2Pivoted : List Value :=
  [Value.obj [("InstanceId", Value.str "i-aaa"),
     ("Tags.Name", Value.str "web"), ("Tags.Env", Value.str "prod")],
   Value.obj [("InstanceId", Value.str "i-bbb"),
     ("Tags.Name", Value.str "api"), ("Tags.Env", Value.str "staging")]]

/-- The cleaned parent rows of the pivoted S2 table (identity column
`Tags.Name` ordered first). -/
def s2CleanRows : List (List (String × Value)) :=
  [[("Tags.Name", Value.str "web"), ("InstanceId", Value.str "i-aaa"),
    ("Tags.Env", Value.str "prod")],
   [("Tags.Name", Value.str "api"), ("InstanceId", Value.str "i-bbb"),
    ("Tags.Env", Value.str "staging")]]

end MCPCondenser

namespace MCPCondenser

/-! ## Theorems -/

lemma foldl_union_eq (g : Value → Finset String) (s : Finset String) (l : List Value) :
    l.foldl (fun u item => u ∪ (g item)) s
      = s ∪ l.foldr (fun item u => g item ∪ u) ∅ := by
  induction l generalizing s with
  | nil => simp
  | cons x xs ih => simp [List.foldl_cons, List.foldr_cons, ih, Finset.union_assoc]

lemma mem_foldl_inter (g : Value → Finset String) (s : Finset String) (l : List Value)
    (k : String) :
    k ∈ l.foldl (fun c item => c ∩ (g item)) s ↔ k ∈ s ∧ ∀ x ∈ l, k ∈ g x := by
  induction l generalizing s with
  | nil => simp
  | cons x xs ih =>
    simp only [List.foldl_cons, ih, Finset.mem_inter, List.mem_cons]
    constructor
    · rintro ⟨⟨hs, hx⟩, hall⟩
      refine ⟨hs, ?_⟩
      rintro y (rfl | hy)
      · exact hx
      · exact hall y hy
    · rintro ⟨hs, hall⟩
      exact ⟨⟨hs, hall x (Or.inl rfl)⟩, fun y hy => hall y (Or.inr hy)⟩

lemma code_union_eq (arr : List Value) :
    arr.foldl (fun u item => u ∪ (itemKeys item).toFinset) ∅ = unionKeys arr := by
  simpa [unionKeys] using foldl_union_eq (fun item => (itemKeys item).toFinset) ∅ arr

lemma code_common_eq (arr : List Value) :
    arr.foldl (fun c item => c ∩ (itemKeys item).toFinset) (unionKeys arr)
      = commonKeys arr := by
  ext k
  rw [mem_foldl_inter]
  simp [commonKeys, Finset.mem_filter]

/-- C4: `is_homogeneous_array(arr)` returns true if and only if `arr` has at
least 2 elements, every element is an Object, the union of the elements'
flattened non-array keys has at least 2 entries, and the intersection of those
per-element key sets contains at least 60% of the union (modelled exactly as
`3·|union| ≤ 5·|common|`). -/
theorem is_homogeneous_array_spec (arr : List Value) :
    is_homogeneous_array arr = true ↔
      2 ≤ arr.length ∧ (∀ x ∈ arr, x.isObj = true) ∧
      2 ≤ (unionKeys arr).card ∧
      3 * (unionKeys arr).card ≤ 5 * (commonKeys arr).card := by
  simp only [is_homogeneous_array, code_union_eq, code_common_eq]
  by_cases hobj : arr.all Value.isObj
  · by_cases hemp : arr.isEmpty
    · simp [hemp, List.isEmpty_iff.mp hemp]
    · simp only [hemp, hobj, Bool.not_true, Bool.or_false, Bool.false_or]
      by_cases hlen : arr.length < 2
      · simp [hlen]
      · simp only [hlen, if_false, if_true]
        by_cases hcard : (unionKeys arr).card < 2
        · simp [hcard]
        · simp only [hcard, if_false, if_true]
          rw [List.all_eq_true] at hobj
          constructor
          · intro h
            refine ⟨by omega, hobj, by omega, by simpa [ge_iff_le] using of_decide_eq_true h⟩
          · rintro ⟨-, -, -, h⟩
            exact decide_eq_true (by simpa [ge_iff_le] using h)
  · have : ¬(∀ x ∈ arr, x.isObj = true) := by
      intro hall
      exact hobj (List.all_eq_true.mpr hall)
    simp [hobj, this]

end MCPCondenser

namespace MCPCondenser

lemma scanRegistry_eq_none_iff {α : Type} (skip : Option String) (text : String)
    (l : List (Parser α)) :
    scanRegistry skip text l = none ↔
      ∀ p ∈ l, skip = some p.name ∨ p.tryParse text = none := by
  induction l with
  | nil => simp [scanRegistry]
  | cons p rest ih =>
    rw [scanRegistry]
    by_cases hs : skip = some p.name
    · rw [if_pos hs, ih]
      constructor
      · intro hall q hq
        rcases List.mem_cons.mp hq with rfl | hq
        · exact Or.inl hs
        · exact hall q hq
      · intro hall q hq
        exact hall q (List.mem_cons_of_mem _ hq)
    · rw [if_neg hs]
      cases htp : p.tryParse text with
      | some r =>
        simp only [reduceCtorEq, false_iff]
        intro hall
        rcases hall p (List.mem_cons_self p rest) with h | h
        · exact hs h
        · rw [htp] at h
          exact Option.noConfusion h
      | none =>
        rw [ih]
        constructor
        · intro hall q hq
          rcases List.mem_cons.mp hq with rfl | hq
          · exact Or.inr htp
          · exact hall q hq
        · intro hall q hq
          exact hall q (List.mem_cons_of_mem _ hq)

lemma scanRegistry_skip_irrel {α : Type} (hn text : String) (l : List (Parser α))
    (h : ∀ p ∈ l, p.name ≠ hn) :
    scanRegistry (some hn) text l = scanRegistry (none (α := String)) text l := by
  induction l with
  | nil => rfl
  | cons p rest ih =>
    rw [scanRegistry, scanRegistry]
    have hp : ¬((some hn : Option String) = some p.name) := by
      intro he
      exact h p (List.mem_cons_self p rest) (Option.some.inj he).symm
    rw [if_neg hp, if_neg (by simp : ¬((none : Option String) = some p.name))]
    cases p.tryParse text with
    | some r => rfl
    | none => exact ih (fun q hq => h q (List.mem_cons_of_mem _ hq))

/-- C3: `parse_input` tries the hinted parser first and returns its
(normalized) result on success; a hint naming no registered parser leaves the
outcome identical to a hintless scan (no error from the unknown hint); and it
raises the not-structured error exactly when every registered parser returns
`None` on the text. -/
theorem parse_input_spec {α : Type} (registry : List (Parser α)) (text : String)
    (hint : Option String) (hnd : (registry.map Parser.name).Nodup) :
    (∀ hn p r, hint = some hn →
        registry.find? (fun q => q.name = hn) = some p → p.tryParse text = some r →
        parse_input registry text hint = .ok (applyNormalize p r)) ∧
    (∀ hn, hint = some hn → hn ∉ registry.map Parser.name →
        parse_input registry text hint = parse_input registry text none) ∧
    ((∃ e, parse_input registry text hint = .error e) ↔
        ∀ p ∈ registry, p.tryParse text = none) := by
  refine ⟨?_, ?_, ?_⟩
  · intro hn p r hh hf ht
    subst hh
    simp only [parse_input, hintedResult, hf, ht, Option.map_some']
  · intro hn hh hnmem
    subst hh
    have hnm : ∀ p ∈ registry, p.name ≠ hn := by
      intro p hp he
      exact hnmem (he ▸ List.mem_map_of_mem Parser.name hp)
    have hf : registry.find? (fun q => q.name = hn) = none := by
      rw [List.find?_eq_none]
      intro p hp
      simp only [decide_eq_true_eq]
      exact hnm p hp
    have hsc := scanRegistry_skip_irrel hn text registry hnm
    simp only [parse_input, hintedResult, hf, hsc]
  · constructor
    · rintro ⟨e, he⟩ p hp
      have herr : hintedResult registry text hint = none ∧
          scanRegistry hint text registry = none := by
        cases hh : hintedResult registry text hint with
        | some r =>
          rw [parse_input, hh] at he
          exact Except.noConfusion he
        | none =>
          cases hsc : scanRegistry hint text registry with
          | some r =>
            rw [parse_input, hh, hsc] at he
            exact Except.noConfusion he
          | none => exact ⟨rfl, rfl⟩
      rcases (scanRegistry_eq_none_iff hint text registry).mp herr.2 p hp with hskip | hfail
      · have hh := herr.1
        rw [hskip] at hh
        simp only [hintedResult] at hh
        cases hfq : registry.find? (fun q => q.name = p.name) with
        | none =>
          rw [List.find?_eq_none] at hfq
          exact absurd (by simp) (hfq p hp)
        | some q =>
          rw [hfq] at hh
          simp only [] at hh
          have hq1 : q ∈ registry := List.mem_of_find?_eq_some hfq
          have hq2 : q.name = p.name := by
            have := List.find?_some hfq
            simpa using this
          have hpq : p = q := List.inj_on_of_nodup_map hnd hp hq1 hq2.symm
          subst hpq
          exact Option.map_eq_none'.mp hh
      · exact hfail
    · intro hall
      have hhint : hintedResult registry text hint = none := by
        cases hint with
        | none => rfl
        | some hn =>
          cases hfq : registry.find? (fun q => q.name = hn) with
          | none => simp only [hintedResult, hfq]
          | some q =>
            simp only [hintedResult, hfq, hall q (List.mem_of_find?_eq_some hfq),
              Option.map_none']
      have hscan : scanRegistry hint text registry = none :=
        (scanRegistry_eq_none_iff hint text registry).mpr
          (fun p hp => Or.inr (hall p hp))
      refine ⟨"Input is not valid " ++ joinComma (registry.map (·.name)), ?_⟩
      simp only [parse_input, hhint, hscan]
end MCPCondenser

namespace MCPCondenser

/-- Witness for C3: the hinted parser wins on success; an unknown hint scans
like no hint; the error case coincides with every parser failing. -/
theorem parse_input_spec_witness :
    parse_input testRegistry "j" (some "json") = .ok (1, "json") ∧
    parse_input testRegistry "j" (some "csv") = parse_input testRegistry "j" none ∧
    ((∃ e, parse_input testRegistry "zz" (some "json") = Except.error e) ↔
      ∀ p ∈ testRegistry, p.tryParse "zz" = none) := by
  have hnd : ((testRegistry).map Parser.name).Nodup := by decide
  refine ⟨?_, ?_, ?_⟩
  · exact (parse_input_spec testRegistry "j" (some "json") hnd).1 "json" testParserJson
      (1, "json") rfl (by rfl) (by rfl)
  · exact (parse_input_spec testRegistry "j" (some "csv") hnd).2.1 "csv" rfl (by decide)
  · exact (parse_input_spec testRegistry "zz" (some "json") hnd).2.2

/-- C5: the governor's fixed precedence — parse failure and no matching rule
give passthrough; a positive `min_token_threshold` with a smaller input gives
skipped before any mode is chosen; `toon_only_tools` beats the condense
allowlist (`tools` unset or containing the tool) which beats `toon_fallback`;
and with `revert_if_larger`, an output at least as large as the input gives
reverted instead of the condensed text. -/
theorem condense_item_spec (CT : String → Nat) (TE CX : Value → String)
    (parsed : Option Value) (text baseName : String) (cfg : ServerConfig) :
    (parsed = none → condense_item CT TE CX parsed text baseName cfg = .passthrough) ∧
    (∀ d, parsed = some d → 0 < cfg.min_token_threshold →
        CT text < cfg.min_token_threshold →
        condense_item CT TE CX parsed text baseName cfg = .skipped) ∧
    (∀ d, parsed = some d →
      ¬(0 < cfg.min_token_threshold ∧ CT text < cfg.min_token_threshold) →
      ((cfg.toon_only_tools.contains baseName = true →
          (¬(cfg.revert_if_larger = true ∧ CT text ≤ CT (TE d)) →
            condense_item CT TE CX parsed text baseName cfg = .condensed (TE d) "toon_only") ∧
          (cfg.revert_if_larger = true → CT text ≤ CT (TE d) →
            condense_item CT TE CX parsed text baseName cfg = .reverted)) ∧
       (cfg.toon_only_tools.contains baseName = false → toolAllowed cfg baseName = true →
          (¬(cfg.revert_if_larger = true ∧ CT text ≤ CT (CX d)) →
            condense_item CT TE CX parsed text baseName cfg = .condensed (CX d) "condense") ∧
          (cfg.revert_if_larger = true → CT text ≤ CT (CX d) →
            condense_item CT TE CX parsed text baseName cfg = .reverted)) ∧
       (cfg.toon_only_tools.contains baseName = false → toolAllowed cfg baseName = false →
          cfg.toon_fallback = true →
          (¬(cfg.revert_if_larger = true ∧ CT text ≤ CT (TE d)) →
            condense_item CT TE CX parsed text baseName cfg = .condensed (TE d) "toon_fallback") ∧
          (cfg.revert_if_larger = true → CT text ≤ CT (TE d) →
            condense_item CT TE CX parsed text baseName cfg = .reverted)) ∧
       (cfg.toon_only_tools.contains baseName = false → toolAllowed cfg baseName = false →
          cfg.toon_fallback = false →
          condense_item CT TE CX parsed text baseName cfg = .passthrough))) := by
  refine ⟨?_, ?_, ?_⟩
  · intro hp
    subst hp
    rfl
  · intro d hp h1 h2
    subst hp
    simp only [condense_item]
    rw [if_pos (by simp only [Bool.and_eq_true, decide_eq_true_eq]; omega)]
  · intro d hp hth
    subst hp
    have hthf : (decide (cfg.min_token_threshold > 0) && decide (CT text < cfg.min_token_threshold)) = false := by
      simp only [Bool.and_eq_false_iff, decide_eq_false_iff_not]
      omega
    refine ⟨?_, ?_, ?_, ?_⟩
    · intro honly
      constructor
      · intro hnorev
        simp only [condense_item, hthf, Bool.false_eq_true, if_false, honly, if_true]
        rw [if_neg (by
          simp only [Bool.and_eq_true, decide_eq_true_eq]
          exact fun hc => hnorev ⟨hc.1, hc.2⟩)]
      · intro hrev hge
        simp only [condense_item, hthf, Bool.false_eq_true, if_false, honly, if_true]
        rw [if_pos (by simp only [hrev, Bool.and_eq_true, decide_eq_true_eq, true_and]; omega)]
    · intro honly hallow
      constructor
      · intro hnorev
        simp only [condense_item, hthf, Bool.false_eq_true, if_false, honly, hallow, if_true]
        rw [if_neg (by
          simp only [Bool.and_eq_true, decide_eq_true_eq]
          exact fun hc => hnorev ⟨hc.1, hc.2⟩)]
      · intro hrev hge
        simp only [condense_item, hthf, Bool.false_eq_true, if_false, honly, hallow, if_true]
        rw [if_pos (by simp only [hrev, Bool.and_eq_true, decide_eq_true_eq, true_and]; omega)]
    · intro honly hallow hfb
      constructor
      · intro hnorev
        simp only [condense_item, hthf, Bool.false_eq_true, if_false, honly, hallow, hfb, if_true]
        rw [if_neg (by
          simp only [Bool.and_eq_true, decide_eq_true_eq]
          exact fun hc => hnorev ⟨hc.1, hc.2⟩)]
      · intro hrev hge
        simp only [condense_item, hthf, Bool.false_eq_true, if_false, honly, hallow, hfb, if_true]
        rw [if_pos (by simp only [hrev, Bool.and_eq_true, decide_eq_true_eq, true_and]; omega)]
    · intro honly hallow hfb
      simp only [condense_item, hthf, Bool.false_eq_true, if_false, honly, hallow, hfb]

/-- Witness for C5 at a concrete configuration: a sub-threshold input is
skipped; a `toon_only` tool is direct-encoded even though it is also in
`tools`; a non-listed tool falls back to TOON; and a too-large output
reverts. -/
theorem condense_item_spec_witness :
    condense_item String.length (fun _ => "TE") (fun _ => "condensed!")
      (some Value.null) "x" "beta" testCfg = .skipped ∧
    condense_item String.length (fun _ => "TE") (fun _ => "condensed!")
      (some Value.null) "abcdefgh" "beta" testCfg = .condensed "TE" "toon_only" ∧
    condense_item String.length (fun _ => "TE") (fun _ => "condensed!")
      (some Value.null) "abcdefgh" "gamma" testCfg = .condensed "TE" "toon_fallback" ∧
    condense_item String.length (fun _ => "TE") (fun _ => "condensed!")
      (some Value.null) "abcdefgh" "alpha" testCfg = .reverted := by
  refine ⟨?_, ?_, ?_, ?_⟩
  · exact (condense_item_spec String.length (fun _ => "TE") (fun _ => "condensed!")
      (some Value.null) "x" "beta" testCfg).2.1 Value.null rfl (by decide) (by decide)
  · exact (((condense_item_spec String.length (fun _ => "TE") (fun _ => "condensed!")
      (some Value.null) "abcdefgh" "beta" testCfg).2.2 Value.null rfl (by decide)).1
        (by decide)).1 (by decide)
  · exact (((condense_item_spec String.length (fun _ => "TE") (fun _ => "condensed!")
      (some Value.null) "abcdefgh" "gamma" testCfg).2.2 Value.null rfl (by decide)).2.2.1
        (by decide) (by decide) (by decide)).1 (by decide)
  · exact (((condense_item_spec String.length (fun _ => "TE") (fun _ => "condensed!")
      (some Value.null) "abcdefgh" "alpha" testCfg).2.2 Value.null rfl (by decide)).2.1
        (by decide) (by decide)).2 (by decide) (by decide)

end MCPCondenser

namespace MCPCondenser

lemma toDigitsCore_length_lower :
    ∀ f n : Nat, n < f → n < 10 ^ (Nat.toDigitsCore 10 f n []).length := by
  intro f
  induction f with
  | zero =>
    intro n h
    omega
  | succ f ih =>
    intro n h
    rw [Nat.toDigitsCore]
    by_cases h10 : n / 10 = 0
    · simp only [h10, if_true, List.length_cons, List.length_nil, pow_one]
      omega
    · simp only [h10, if_false]
      rw [Nat.toDigitsCore_lens_eq]
      rw [pow_succ]
      have hlt := ih (n / 10) (by omega)
      omega

lemma nat_lt_ten_pow_repr (n : Nat) : n < 10 ^ (Nat.repr n).length :=
  toDigitsCore_length_lower (n + 1) n (by omega)

lemma repr_length_pos (n : Nat) : 0 < (Nat.repr n).length := by
  by_contra hc
  push_neg at hc
  have h0 : (Nat.repr n).length = 0 := by omega
  have h := nat_lt_ten_pow_repr n
  rw [h0, pow_zero] at h
  have hn : n = 0 := by omega
  subst hn
  exact absurd h0 (by decide)

lemma repr_len_mono {n m : Nat} (h : n ≤ m) :
    (Nat.repr n).length ≤ (Nat.repr m).length :=
  Nat.repr_length n _ (repr_length_pos m) (lt_of_le_of_lt h (nat_lt_ten_pow_repr m))

lemma strTake_length (s : String) (n : Nat) :
    (strTake s n).length = min n s.length := by
  show (s.data.take n).length = min n s.data.length
  simp [List.length_take]

lemma countTake_mono (text : String) :
    ∀ i j : Nat, i ≤ j →
      count_tokens (strTake text i) ≤ count_tokens (strTake text j) := by
  intro i j hij
  simp only [count_tokens, strTake_length]
  exact Nat.div_le_div_right (by omega)

lemma truncNotice_length_le (a b c c' : Nat) (h : (toString c).length ≤ (toString c').length) :
    (truncNotice a b c).length ≤ (truncNotice a b c').length := by
  simp only [truncNotice, String.length_append]
  omega

lemma bsearchPfx_spec (f : Nat → Nat) (target : Nat)
    (hmono : ∀ i j, i ≤ j → f i ≤ f j) :
    ∀ lo hi, f lo ≤ target → lo ≤ hi →
      lo ≤ bsearchPfx f target lo hi ∧ bsearchPfx f target lo hi ≤ hi ∧
      f (bsearchPfx f target lo hi) ≤ target ∧
      ∀ m, bsearchPfx f target lo hi < m → m ≤ hi → target < f m := by
  intro lo hi
  induction lo, hi using bsearchPfx.induct f target with
  | case1 lo hi hlt mid hfit ih =>
    intro hlo hle
    have hmid : mid = (lo + hi + 1) / 2 := rfl
    rw [bsearchPfx, dif_pos hlt, ← hmid, if_pos hfit]
    obtain ⟨i1, i2, i3, i4⟩ := ih hfit (by omega)
    exact ⟨by omega, i2, i3, i4⟩
  | case2 lo hi hlt mid hfit ih =>
    intro hlo hle
    have hmid : mid = (lo + hi + 1) / 2 := rfl
    rw [bsearchPfx, dif_pos hlt, ← hmid, if_neg hfit]
    obtain ⟨i1, i2, i3, i4⟩ := ih hlo (by omega)
    refine ⟨i1, by omega, i3, ?_⟩
    intro m hm1 hm2
    by_cases hcase : m ≤ mid - 1
    · exact i4 m hm1 hcase
    · have hmm : mid ≤ m := by omega
      have := hmono mid m hmm
      omega
  | case3 lo hi hlt =>
    intro hlo hle
    rw [bsearchPfx, dif_neg hlt]
    exact ⟨le_refl lo, hle, hlo, fun m hm1 hm2 => by omega⟩

/-- C7: truncation is a no-op when the text fits; otherwise the result is the
longest character prefix whose token count fits the limit minus the notice
overhead, followed by the notice stating the original and final token counts;
and whenever the notice overhead itself fits below the limit, the result's
token count is at most `L + 1` (token counting by the in-source `len // 4`
fallback). -/
theorem truncate_to_token_limit_spec (text : String) (L : Nat) (hL : 1 ≤ L) :
    (count_tokens text ≤ L → truncate_to_token_limit text L = text) ∧
    (L < count_tokens text →
      ∃ lo,
        truncate_to_token_limit text L =
          strTake text lo ++
            truncNotice L (count_tokens text)
              (count_tokens (strTake text lo) +
                count_tokens (truncNotice L (count_tokens text) L)) ∧
        count_tokens (strTake text lo) ≤
          (if L ≤ count_tokens (truncNotice L (count_tokens text) L) then 1
           else L - count_tokens (truncNotice L (count_tokens text) L)) ∧
        (∀ m, m ≤ text.length →
          count_tokens (strTake text m) ≤
            (if L ≤ count_tokens (truncNotice L (count_tokens text) L) then 1
             else L - count_tokens (truncNotice L (count_tokens text) L)) → m ≤ lo)) ∧
    (count_tokens (truncNotice L (count_tokens text) L) < L →
      count_tokens (truncate_to_token_limit text L) ≤ L + 1) := by
  have hL0 : ¬(L = 0) := by omega
  by_cases hfit : count_tokens text ≤ L
  · refine ⟨fun _ => ?_, fun hover => absurd hover (by omega), fun _ => ?_⟩
    · rw [truncate_to_token_limit, if_neg hL0, if_pos hfit]
    · rw [truncate_to_token_limit, if_neg hL0, if_pos hfit]
      omega
  · have hover : L < count_tokens text := by omega
    set NO := count_tokens (truncNotice L (count_tokens text) L) with hNO
    set TG := (if L ≤ NO then 1 else L - NO) with hTG
    have hTG1 : 1 ≤ TG := by
      rw [hTG]
      split <;> omega
    have hres : truncate_to_token_limit text L =
        strTake text (bsearchPfx (fun m => count_tokens (strTake text m)) TG 0 text.length) ++
          truncNotice L (count_tokens text)
            (count_tokens (strTake text
              (bsearchPfx (fun m => count_tokens (strTake text m)) TG 0 text.length)) + NO) := by
      rw [truncate_to_token_limit, if_neg hL0, if_neg hfit]
    obtain ⟨b1, b2, b3, b4⟩ := bsearchPfx_spec (fun m => count_tokens (strTake text m)) TG
      (countTake_mono text) 0 text.length
      (by simp [count_tokens, strTake_length]) (by omega)
    set lo := bsearchPfx (fun m => count_tokens (strTake text m)) TG 0 text.length with hlo
    refine ⟨fun hc => absurd hc (by omega), fun _ => ⟨lo, hres, b3, ?_⟩, ?_⟩
    · intro m hm1 hm2
      by_contra hc
      have := b4 m (by omega) hm1
      omega
    · intro hNOlt
      rw [hres]
      have hTGe : TG = L - NO := by
        rw [hTG, if_neg (by omega)]
      have hfin : count_tokens (strTake text lo) + NO ≤ L := by
        rw [hTGe] at b3
        omega
      have hdig : (toString (count_tokens (strTake text lo) + NO)).length ≤
          (toString L).length := by
        show (Nat.repr _).length ≤ (Nat.repr _).length
        exact repr_len_mono hfin
      have hnl : (truncNotice L (count_tokens text)
          (count_tokens (strTake text lo) + NO)).length ≤
          (truncNotice L (count_tokens text) L).length :=
        truncNotice_length_le _ _ _ _ hdig
      have hsl : NO = (truncNotice L (count_tokens text) L).length / 4 := by
        rw [hNO]
        rfl
      rw [hTGe] at b3
      have hb3 : (strTake text lo).length / 4 ≤ L - NO := b3
      have heq : count_tokens (strTake text lo ++ truncNotice L (count_tokens text)
          (count_tokens (strTake text lo) + NO)) =
          ((strTake text lo).length + (truncNotice L (count_tokens text)
            (count_tokens (strTake text lo) + NO)).length) / 4 := by
        rw [count_tokens, String.length_append]
      rw [heq]
      omega

end MCPCondenser

namespace MCPCondenser

lemma preprocess_table_eq (arr : List Value) (h : Heuristics) :
    preprocess_table arr h =
      ((capColumns h (preElided arr (tableCols arr) h).1 (preCapFinal arr h)).1,
       arr.map (fun item => cleanedRow (flattenItem item)
         (capColumns h (preElided arr (tableCols arr) h).1 (preCapFinal arr h)).2),
       (capColumns h (preElided arr (tableCols arr) h).1 (preCapFinal arr h)).2) := rfl

lemma bfStep_final_prefix (e : List String) (tm : List (String × List String))
    (tms : List String) (st : List (String × List String) × List String) (c : String) :
    ∃ d, (bfStep e tm tms st c).1 = st.1 ++ d := by
  rw [bfStep]
  split
  · exact ⟨[], by simp⟩
  · split
    · cases tm.find? (fun g => g.2.contains c && !st.2.contains g.1) with
      | some g => exact ⟨[g], rfl⟩
      | none => exact ⟨[], by simp⟩
    · exact ⟨[(c, [c])], rfl⟩

lemma bfStep_seen_mono (e : List String) (tm : List (String × List String))
    (tms : List String) (st : List (String × List String) × List String) (c : String)
    {x : String} (hx : x ∈ st.2) : x ∈ (bfStep e tm tms st c).2 := by
  rw [bfStep]
  split
  · exact hx
  · split
    · cases tm.find? (fun g => g.2.contains c && !st.2.contains g.1) with
      | some g => exact List.mem_append_left _ (List.mem_append_left _ hx)
      | none => exact hx
    · exact List.mem_append_left _ hx

lemma foldBF_final_prefix (e : List String) (tm : List (String × List String))
    (tms : List String) :
    ∀ (A : List String) (st : List (String × List String) × List String),
      ∃ d, (A.foldl (bfStep e tm tms) st).1 = st.1 ++ d := by
  intro A
  induction A with
  | nil => exact fun st => ⟨[], by simp⟩
  | cons c rest ih =>
    intro st
    rw [List.foldl_cons]
    obtain ⟨d1, hd1⟩ := bfStep_final_prefix e tm tms st c
    obtain ⟨d2, hd2⟩ := ih (bfStep e tm tms st c)
    exact ⟨d1 ++ d2, by rw [hd2, hd1, List.append_assoc]⟩

lemma foldBF_seen_mono (e : List String) (tm : List (String × List String))
    (tms : List String) :
    ∀ (A : List String) (st : List (String × List String) × List String) (x : String),
      x ∈ st.2 → x ∈ (A.foldl (bfStep e tm tms) st).2 := by
  intro A
  induction A with
  | nil => exact fun st x hx => hx
  | cons c rest ih =>
    intro st x hx
    rw [List.foldl_cons]
    exact ih _ x (bfStep_seen_mono e tm tms st c hx)

lemma bfStep_length (e : List String) (tm : List (String × List String))
    (tms : List String) (st : List (String × List String) × List String) (c : String) :
    (bfStep e tm tms st c).1.length ≤ st.1.length + 1 := by
  rw [bfStep]
  split
  · omega
  · split
    · cases hf : tm.find? (fun g => g.2.contains c && !st.2.contains g.1) with
      | some g => simp [hf]
      | none => simp [hf]
    · simp

lemma foldBF_length (e : List String) (tm : List (String × List String))
    (tms : List String) :
    ∀ (A : List String) (st : List (String × List String) × List String),
      (A.foldl (bfStep e tm tms) st).1.length ≤ st.1.length + A.length := by
  intro A
  induction A with
  | nil => simp
  | cons c rest ih =>
    intro st
    rw [List.foldl_cons]
    have h1 := ih (bfStep e tm tms st c)
    have h2 := bfStep_length e tm tms st c
    simp only [List.length_cons]
    omega

end MCPCondenser

namespace MCPCondenser

lemma mem_addToGroups {gs : List (String × List String)} {p c : String}
    {g : String × List String} (hg : g ∈ addToGroups gs p c) :
    (g ∈ gs ∧ g.1 ≠ p) ∨ (∃ g₀, g₀ ∈ gs ∧ g₀.1 = p ∧ g = (p, g₀.2 ++ [c])) ∨
      g = (p, [c]) := by
  unfold addToGroups at hg
  split at hg
  · rcases List.mem_map.mp hg with ⟨g₀, hg₀, hge⟩
    by_cases hk : g₀.1 = p
    · rw [if_pos hk] at hge
      exact Or.inr (Or.inl ⟨g₀, hg₀, hk, by rw [← hge, hk]⟩)
    · rw [if_neg hk] at hge
      exact Or.inl ⟨hge ▸ hg₀, hge ▸ hk⟩
  · rcases List.mem_append.mp hg with hl | hr
    · next hany =>
      refine Or.inl ⟨hl, ?_⟩
      intro he
      rw [List.any_eq_true] at hany
      exact hany ⟨g, hl, by simp [he]⟩
    · exact Or.inr (Or.inr (by simpa using hr))

lemma addToGroups_keys (gs : List (String × List String)) (p c : String) :
    (addToGroups gs p c).map Prod.fst =
      if gs.any (fun g => g.1 = p) then gs.map Prod.fst else gs.map Prod.fst ++ [p] := by
  unfold addToGroups
  split
  · rw [List.map_map]
    refine List.map_congr_left ?_
    intro g hg
    by_cases hk : g.1 = p
    · simp [hk, Function.comp]
    · simp [hk, Function.comp]
  · simp

lemma groupByPfx_inv (cols : List String) :
    ∀ g ∈ groupByPfx cols,
      ∀ m ∈ g.2, (∃ leaf, rsplitDot m = some (g.1, leaf)) ∧ m ∈ cols := by
  suffices H : ∀ (cs : List String) (gs : List (String × List String)) (seen : List String),
      (∀ g ∈ gs, ∀ m ∈ g.2, (∃ leaf, rsplitDot m = some (g.1, leaf)) ∧ m ∈ seen) →
      ∀ g ∈ cs.foldl (fun gs c =>
          match rsplitDot c with
          | none => gs
          | some pl => addToGroups gs pl.1 c) gs,
        ∀ m ∈ g.2, (∃ leaf, rsplitDot m = some (g.1, leaf)) ∧ (m ∈ seen ∨ m ∈ cs) by
    intro g hg m hm
    have := H cols [] [] (by simp) g (by simpa [groupByPfx] using hg) m hm
    exact ⟨this.1, by simpa using this.2⟩
  intro cs
  induction cs with
  | nil =>
    intro gs seen hinv g hg m hm
    have := hinv g hg m hm
    exact ⟨this.1, Or.inl this.2⟩
  | cons c rest ih =>
    intro gs seen hinv g hg m hm
    rw [List.foldl_cons] at hg
    cases hr : rsplitDot c with
    | none =>
      rw [hr] at hg
      have := ih gs seen hinv g hg m hm
      rcases this.2 with h | h
      · exact ⟨this.1, Or.inl h⟩
      · exact ⟨this.1, Or.inr (List.mem_cons_of_mem _ h)⟩
    | some pl =>
      rw [hr] at hg
      have hinv' : ∀ g ∈ addToGroups gs pl.1 c, ∀ m ∈ g.2,
          (∃ leaf, rsplitDot m = some (g.1, leaf)) ∧ m ∈ seen ++ [c] := by
        intro g' hg' m' hm'
        rcases mem_addToGroups hg' with ⟨hin, _⟩ | ⟨g₀, hg₀, hk, hge⟩ | hge
        · have := hinv g' hin m' hm'
          exact ⟨this.1, List.mem_append_left _ this.2⟩
        · subst hge
          simp only at hm'
          rcases List.mem_append.mp hm' with hm0 | hm0
          · have := hinv g₀ hg₀ m' hm0
            exact ⟨hk ▸ this.1, List.mem_append_left _ this.2⟩
          · simp only [List.mem_singleton] at hm0
            subst hm0
            refine ⟨⟨pl.2, by simpa using hr⟩, by simp⟩
        · subst hge
          simp only [List.mem_singleton] at hm'
          subst hm'
          refine ⟨⟨pl.2, by simpa using hr⟩, by simp⟩
      have := ih (addToGroups gs pl.1 c) (seen ++ [c]) hinv' g hg m hm
      rcases this.2 with h | h
      · rcases List.mem_append.mp h with h0 | h0
        · exact ⟨this.1, Or.inl h0⟩
        · simp only [List.mem_singleton] at h0
          exact ⟨this.1, Or.inr (h0 ▸ List.mem_cons_self c rest)⟩
      · exact ⟨this.1, Or.inr (List.mem_cons_of_mem _ h)⟩

lemma groupByPfx_member_pfx {cols : List String} {g : String × List String}
    (hg : g ∈ groupByPfx cols) {m : String} (hm : m ∈ g.2) :
    ∃ leaf, rsplitDot m = some (g.1, leaf) :=
  (groupByPfx_inv cols g hg m hm).1

lemma groupByPfx_member_mem {cols : List String} {g : String × List String}
    (hg : g ∈ groupByPfx cols) {m : String} (hm : m ∈ g.2) : m ∈ cols :=
  (groupByPfx_inv cols g hg m hm).2

lemma groupByPfx_keys_nodup (cols : List String) :
    ((groupByPfx cols).map Prod.fst).Nodup := by
  suffices H : ∀ (cs : List String) (gs : List (String × List String)),
      (gs.map Prod.fst).Nodup →
      ((cs.foldl (fun gs c =>
          match rsplitDot c with
          | none => gs
          | some pl => addToGroups gs pl.1 c) gs).map Prod.fst).Nodup by
    simpa [groupByPfx] using H cols [] (by simp)
  intro cs
  induction cs with
  | nil => exact fun gs h => h
  | cons c rest ih =>
    intro gs hnd
    rw [List.foldl_cons]
    cases hr : rsplitDot c with
    | none => exact ih gs hnd
    | some pl =>
      refine ih _ ?_
      rw [addToGroups_keys]
      split
      · exact hnd
      · next hany =>
        rw [List.nodup_append]
        refine ⟨hnd, List.nodup_singleton _, ?_⟩
        intro x hx hy
        simp only [List.mem_singleton] at hy
        subst hy
        rcases List.mem_map.mp hx with ⟨g₀, hg₀, hge⟩
        rw [List.any_eq_true] at hany
        exact hany ⟨g₀, hg₀, by simp [hge]⟩

end MCPCondenser

namespace MCPCondenser

lemma mem_buildTupleMap {arr : List Value} {rem : List String} {h : Heuristics}
    {el : List String} {g : String × List String} (hg : g ∈ buildTupleMap arr rem h el) :
    h.group_tuples = true ∧
      ∃ p ms, (p, ms) ∈ detect_numeric_tuples arr rem ∧
        g.2 = ms.filter (fun m => !el.contains m) ∧ g.1 = tupleHeader p g.2 ∧
        3 ≤ g.2.length ∧ g.2.length ≤ h.max_tuple_size := by
  unfold buildTupleMap at hg
  cases hgt : h.group_tuples with
  | false =>
    rw [hgt] at hg
    simp at hg
  | true =>
    rw [hgt] at hg
    simp only [if_true] at hg
    rcases List.mem_filterMap.mp hg with ⟨pm, hpm, heq⟩
    split at heq
    · next hcond =>
      simp only [Option.some.injEq] at heq
      rw [Bool.and_eq_true, decide_eq_true_eq, decide_eq_true_eq] at hcond
      refine ⟨rfl, pm.1, pm.2, hpm, ?_, ?_, ?_, ?_⟩
      · rw [← heq]
      · rw [← heq]
      · rw [← heq]
        exact hcond.1
      · rw [← heq]
        exact hcond.2
    · exact Option.noConfusion heq

lemma detect_sub_group {arr : List Value} {rem : List String} {p : String}
    {ms : List String} (hm : (p, ms) ∈ detect_numeric_tuples arr rem) :
    (p, ms) ∈ groupByPfx rem :=
  List.mem_of_mem_filter hm

lemma tupleMap_member_pfx {arr : List Value} {rem : List String} {h : Heuristics}
    {el : List String} {g : String × List String} (hg : g ∈ buildTupleMap arr rem h el)
    {m : String} (hm : m ∈ g.2) :
    ∃ p leaf, rsplitDot m = some (p, leaf) ∧ g.1 = tupleHeader p g.2 := by
  obtain ⟨-, p, ms, hdet, hg2, hg1, -, -⟩ := mem_buildTupleMap hg
  have hmms : m ∈ ms := List.mem_of_mem_filter (hg2 ▸ hm)
  obtain ⟨leaf, hleaf⟩ := groupByPfx_member_pfx (detect_sub_group hdet) hmms
  exact ⟨p, leaf, hleaf, hg1⟩

lemma tupleMap_member_mem_rem {arr : List Value} {rem : List String} {h : Heuristics}
    {el : List String} {g : String × List String} (hg : g ∈ buildTupleMap arr rem h el)
    {m : String} (hm : m ∈ g.2) : m ∈ rem := by
  obtain ⟨-, p, ms, hdet, hg2, -, -, -⟩ := mem_buildTupleMap hg
  exact groupByPfx_member_mem (detect_sub_group hdet) (List.mem_of_mem_filter (hg2 ▸ hm))

/-- Every column belongs to at most one kept tuple group: groups are keyed by
the column's own dotted prefix, and the group keys are distinct. -/
lemma tupleMap_member_unique {arr : List Value} {rem : List String} {h : Heuristics}
    {el : List String} {g g' : String × List String}
    (hg : g ∈ buildTupleMap arr rem h el) (hg' : g' ∈ buildTupleMap arr rem h el)
    {m : String} (hm : m ∈ g.2) (hm' : m ∈ g'.2) : g = g' := by
  obtain ⟨-, p, ms, hdet, hg2, hg1, -, -⟩ := mem_buildTupleMap hg
  obtain ⟨-, p', ms', hdet', hg2', hg1', -, -⟩ := mem_buildTupleMap hg'
  have hmms : m ∈ ms := List.mem_of_mem_filter (hg2 ▸ hm)
  have hmms' : m ∈ ms' := List.mem_of_mem_filter (hg2' ▸ hm')
  obtain ⟨l1, hl1⟩ := groupByPfx_member_pfx (detect_sub_group hdet) hmms
  obtain ⟨l2, hl2⟩ := groupByPfx_member_pfx (detect_sub_group hdet') hmms'
  have hpp : p = p' := by
    rw [hl1] at hl2
    exact (Prod.mk.injEq _ _ _ _).mp (Option.some.inj hl2) |>.1
  subst hpp
  have hnd : ((groupByPfx rem).map Prod.fst).Nodup := groupByPfx_keys_nodup rem
  have heq : (p, ms) = (p, ms') :=
    List.inj_on_of_nodup_map hnd (detect_sub_group hdet) (detect_sub_group hdet') rfl
  have hms : ms = ms' := (Prod.mk.injEq _ _ _ _).mp heq |>.2
  subst hms
  have h2 : g.2 = g'.2 := by rw [hg2, hg2']
  have h1 : g.1 = g'.1 := by rw [hg1, hg1', h2]
  exact Prod.ext h1 h2

lemma paren_str_data : (")" : String).data = [')'] := rfl

lemma tupleHeader_getLast (p : String) (live : List String) :
    (tupleHeader p live).data.getLast? = some ')' := by
  unfold tupleHeader
  rw [String.data_append, List.getLast?_append]
  rfl

lemma lastSegLower_getLast {s : String} (hs : s.data.getLast? = some ')') :
    (lastSegLower s).data.getLast? = some ')' := by
  unfold lastSegLower
  cases hrev : s.data.reverse with
  | nil =>
    rw [← List.head?_reverse, hrev] at hs
    exact Option.noConfusion hs
  | cons c t =>
    have hc : c = ')' := by
      rw [← List.head?_reverse, hrev] at hs
      simpa using hs
    subst hc
    simp [List.takeWhile_cons, List.reverse_cons, List.map_append, List.getLast?_concat]

lemma isIdCol_ends_paren_false {s : String} (hs : s.data.getLast? = some ')') :
    isIdCol s = false := by
  have h := lastSegLower_getLast hs
  cases hc : isIdCol s with
  | false => rfl
  | true =>
    exfalso
    have hmem : lastSegLower s ∈ idKwList := by
      unfold isIdCol at hc
      simpa using hc
    unfold idKwList at hmem
    simp only [List.mem_cons, List.not_mem_nil, or_false] at hmem
    rcases hmem with h1 | h1 | h1 | h1 | h1 | h1 | h1 <;>
      (rw [h1] at h; exact absurd h (by decide))

lemma isIdCol_tupleHeader (p : String) (live : List String) :
    isIdCol (tupleHeader p live) = false :=
  isIdCol_ends_paren_false (tupleHeader_getLast p live)

end MCPCondenser

namespace MCPCondenser

/-- The P1 invariant: whenever an identity member of a tuple group has been
seen, the group's header has been seen as well. -/
def SeenInv (tm : List (String × List String))
    (st : List (String × List String) × List String) : Prop :=
  ∀ g ∈ tm, ∀ m ∈ g.2, isIdCol m = true → m ∈ st.2 → g.1 ∈ st.2

lemma bfStep_SeenInv {e tms : List String} {tm : List (String × List String)}
    {st : List (String × List String) × List String} {c : String}
    (huniq : ∀ g ∈ tm, ∀ g' ∈ tm, ∀ m, m ∈ g.2 → m ∈ g'.2 → g = g')
    (hhdr : ∀ g ∈ tm, isIdCol g.1 = false)
    (htms : tms = tm.flatMap (·.2))
    (hP : SeenInv tm st) : SeenInv tm (bfStep e tm tms st c) := by
  intro g hg m hm hid hmem
  rw [bfStep] at hmem ⊢
  by_cases h1 : (e.contains c || st.2.contains c) = true
  · rw [if_pos h1] at hmem ⊢
    exact hP g hg m hm hid hmem
  · rw [if_neg h1] at hmem ⊢
    by_cases h2 : tms.contains c = true
    · rw [if_pos h2] at hmem ⊢
      cases hf : tm.find? (fun g => g.2.contains c && !st.2.contains g.1) with
      | some g' =>
        rw [hf] at hmem
        dsimp only at hmem ⊢
        rcases List.mem_append.mp hmem with hm1 | hm1
        · rcases List.mem_append.mp hm1 with hm2 | hm2
          · exact List.mem_append_left _ (List.mem_append_left _ (hP g hg m hm hid hm2))
          · simp only [List.mem_singleton] at hm2
            subst hm2
            have := hhdr g' (List.mem_of_find?_eq_some hf)
            rw [hid] at this
            exact Bool.noConfusion this
        · have hgg : g = g' := huniq g hg g' (List.mem_of_find?_eq_some hf) m hm hm1
          subst hgg
          exact List.mem_append_left _ (List.mem_append_right _ (by simp))
      | none =>
        rw [hf] at hmem
        exact hP g hg m hm hid hmem
    · rw [if_neg h2] at hmem ⊢
      dsimp only at hmem ⊢
      rcases List.mem_append.mp hmem with hm1 | hm1
      · exact List.mem_append_left _ (hP g hg m hm hid hm1)
      · simp only [List.mem_singleton] at hm1
        subst hm1
        exfalso
        have : tms.contains m = true :=
          List.elem_iff.mpr (htms ▸ List.mem_flatMap.mpr ⟨g, hg, hm⟩)
        rw [this] at h2
        exact h2 rfl

lemma foldBF_SeenInv {e tms : List String} {tm : List (String × List String)}
    (huniq : ∀ g ∈ tm, ∀ g' ∈ tm, ∀ m, m ∈ g.2 → m ∈ g'.2 → g = g')
    (hhdr : ∀ g ∈ tm, isIdCol g.1 = false)
    (htms : tms = tm.flatMap (·.2)) :
    ∀ (A : List String) (st : List (String × List String) × List String),
      SeenInv tm st → SeenInv tm (A.foldl (bfStep e tm tms) st) := by
  intro A
  induction A with
  | nil => exact fun st h => h
  | cons c rest ih =>
    intro st hP
    rw [List.foldl_cons]
    exact ih _ (bfStep_SeenInv huniq hhdr htms hP)

lemma bfStep_scan {e tms : List String} {tm : List (String × List String)}
    {st : List (String × List String) × List String} {c : String}
    (huniq : ∀ g ∈ tm, ∀ g' ∈ tm, ∀ m, m ∈ g.2 → m ∈ g'.2 → g = g')
    (htms : tms = tm.flatMap (·.2))
    (hP : SeenInv tm st)
    {g : String × List String} (hg : g ∈ tm) (hc : c ∈ g.2)
    (hid : isIdCol c = true) (hel : e.contains c = false) :
    g.1 ∈ (bfStep e tm tms st c).2 := by
  rw [bfStep]
  split
  · next hcond =>
    rw [Bool.or_eq_true, hel] at hcond
    rcases hcond with hcond | hcond
    · exact Bool.noConfusion hcond
    · exact hP g hg c hc hid (List.elem_iff.mp hcond)
  · have hctms : tms.contains c = true :=
      List.elem_iff.mpr (htms ▸ List.mem_flatMap.mpr ⟨g, hg, hc⟩)
    rw [if_pos hctms]
    cases hf : tm.find? (fun g => g.2.contains c && !st.2.contains g.1) with
    | some g' =>
      have hpred := List.find?_some hf
      rw [Bool.and_eq_true, List.elem_iff] at hpred
      have hgg : g = g' := huniq g hg g' (List.mem_of_find?_eq_some hf) c hc hpred.1
      subst hgg
      simp
    | none =>
      rw [List.find?_eq_none] at hf
      have := hf g hg
      rw [Bool.and_eq_true, List.elem_iff] at this
      simp only [not_and, Bool.not_eq_true'] at this
      have h2 := this hc
      cases hb : st.2.contains g.1 with
      | false => exact absurd hb h2
      | true => exact List.elem_iff.mp hb

lemma foldBF_scan {e tms : List String} {tm : List (String × List String)}
    (huniq : ∀ g ∈ tm, ∀ g' ∈ tm, ∀ m, m ∈ g.2 → m ∈ g'.2 → g = g')
    (hhdr : ∀ g ∈ tm, isIdCol g.1 = false)
    (htms : tms = tm.flatMap (·.2)) :
    ∀ (A : List String) (st : List (String × List String) × List String),
      SeenInv tm st →
      ∀ {g : String × List String}, g ∈ tm →
      ∀ {c : String}, c ∈ A → c ∈ g.2 → isIdCol c = true → e.contains c = false →
      g.1 ∈ (A.foldl (bfStep e tm tms) st).2 := by
  intro A
  induction A with
  | nil =>
    intro st _ g _ c hc
    simp at hc
  | cons c0 rest ih =>
    intro st hP g hg c hcmem hc hid hel
    rw [List.foldl_cons]
    rcases List.mem_cons.mp hcmem with rfl | hcr
    · exact foldBF_seen_mono _ _ _ rest _ _ (bfStep_scan huniq htms hP hg hc hid hel)
    · exact ih _ (bfStep_SeenInv huniq hhdr htms hP) hg hcr hc hid hel

/-- Rest-phase: folding non-identity columns over a state whose seen set
already covers the header of every tuple group with an identity member
appends only identity-free entries. -/
lemma foldBF_rest {e tms : List String} {tm : List (String × List String)}
    (htms : tms = tm.flatMap (·.2)) :
    ∀ (A : List String) (st : List (String × List String) × List String),
      (∀ c ∈ A, isIdCol c = false) →
      (∀ g ∈ tm, (∃ m ∈ g.2, isIdCol m = true) → g.1 ∈ st.2) →
      ∀ entry ∈ (A.foldl (bfStep e tm tms) st).1,
        entry ∈ st.1 ∨ ∀ src ∈ entry.2, isIdCol src = false := by
  intro A
  induction A with
  | nil =>
    intro st _ _ entry he
    exact Or.inl he
  | cons c rest ih =>
    intro st hA hS entry he
    rw [List.foldl_cons] at he
    have hstep : ∀ x ∈ (bfStep e tm tms st c).1,
        x ∈ st.1 ∨ ∀ src ∈ x.2, isIdCol src = false := by
      intro x hx
      rw [bfStep] at hx
      split at hx
      · exact Or.inl hx
      · split at hx
        · cases hf : tm.find? (fun g => g.2.contains c && !st.2.contains g.1) with
          | some g' =>
            rw [hf] at hx
            simp only at hx
            rcases List.mem_append.mp hx with hx1 | hx1
            · exact Or.inl hx1
            · simp only [List.mem_singleton] at hx1
              subst hx1
              refine Or.inr ?_
              intro src hsrc
              by_contra hcsrc
              rw [Bool.not_eq_false] at hcsrc
              have hhd : x.1 ∈ st.2 :=
                hS x (List.mem_of_find?_eq_some hf) ⟨src, hsrc, hcsrc⟩
              have hpred := List.find?_some hf
              rw [Bool.and_eq_true] at hpred
              have := hpred.2
              rw [Bool.not_eq_true', ← Bool.not_eq_true] at this
              exact this (List.elem_iff.mpr hhd)
          | none =>
            rw [hf] at hx
            exact Or.inl hx
        · simp only at hx
          rcases List.mem_append.mp hx with hx1 | hx1
          · exact Or.inl hx1
          · simp only [List.mem_singleton] at hx1
            subst hx1
            refine Or.inr ?_
            intro src hsrc
            simp only [List.mem_singleton] at hsrc
            subst hsrc
            exact hA _ (List.mem_cons_self _ rest)
    have hS' : ∀ g ∈ tm, (∃ m ∈ g.2, isIdCol m = true) → g.1 ∈ (bfStep e tm tms st c).2 :=
      fun g hg hex => bfStep_seen_mono e tm tms st c (hS g hg hex)
    have hA' : ∀ c' ∈ rest, isIdCol c' = false :=
      fun c' hc' => hA c' (List.mem_cons_of_mem _ hc')
    rcases ih _ hA' hS' entry he with h1 | h1
    · exact hstep entry h1
    · exact Or.inr h1

end MCPCondenser

namespace MCPCondenser

lemma bfStep_rest_delta {e tms : List String} {tm : List (String × List String)}
    {st : List (String × List String) × List String} {c : String}
    (hcnonid : isIdCol c = false)
    (hS : ∀ g ∈ tm, (∃ m ∈ g.2, isIdCol m = true) → g.1 ∈ st.2) :
    ∃ d, (bfStep e tm tms st c).1 = st.1 ++ d ∧
      ∀ x ∈ d, ∀ src ∈ x.2, isIdCol src = false := by
  rw [bfStep]
  split
  · exact ⟨[], by simp, by simp⟩
  · split
    · cases hf : tm.find? (fun g => g.2.contains c && !st.2.contains g.1) with
      | some g' =>
        refine ⟨[g'], rfl, ?_⟩
        intro x hx src hsrc
        simp only [List.mem_singleton] at hx
        subst hx
        by_contra hcsrc
        rw [Bool.not_eq_false] at hcsrc
        have hhd : x.1 ∈ st.2 := hS x (List.mem_of_find?_eq_some hf) ⟨src, hsrc, hcsrc⟩
        have hpred := List.find?_some hf
        rw [Bool.and_eq_true] at hpred
        have h2 := hpred.2
        rw [Bool.not_eq_true', ← Bool.not_eq_true] at h2
        exact h2 (List.elem_iff.mpr hhd)
      | none => exact ⟨[], by simp, by simp⟩
    · refine ⟨[(c, [c])], rfl, ?_⟩
      intro x hx src hsrc
      simp only [List.mem_singleton] at hx
      subst hx
      simp only [List.mem_singleton] at hsrc
      subst hsrc
      exact hcnonid

lemma foldBF_rest_delta {e tms : List String} {tm : List (String × List String)} :
    ∀ (A : List String) (st : List (String × List String) × List String),
      (∀ c ∈ A, isIdCol c = false) →
      (∀ g ∈ tm, (∃ m ∈ g.2, isIdCol m = true) → g.1 ∈ st.2) →
      ∃ d, (A.foldl (bfStep e tm tms) st).1 = st.1 ++ d ∧
        ∀ x ∈ d, ∀ src ∈ x.2, isIdCol src = false := by
  intro A
  induction A with
  | nil => exact fun st _ _ => ⟨[], by simp, by simp⟩
  | cons c rest ih =>
    intro st hA hS
    rw [List.foldl_cons]
    obtain ⟨d0, hd0, hd0f⟩ :=
      bfStep_rest_delta (hA c (List.mem_cons_self c rest)) hS
    obtain ⟨d1, hd1, hd1f⟩ := ih (bfStep e tm tms st c)
      (fun c' hc' => hA c' (List.mem_cons_of_mem _ hc'))
      (fun g hg hex => bfStep_seen_mono e tm tms st c (hS g hg hex))
    refine ⟨d0 ++ d1, by rw [hd1, hd0, List.append_assoc], ?_⟩
    intro x hx
    rcases List.mem_append.mp hx with hx1 | hx1
    · exact hd0f x hx1
    · exact hd1f x hx1

lemma capColumns_pos (h : Heuristics) (anns : List String)
    (final : List (String × List String))
    (hcap : 0 < h.max_table_columns) (hover : h.max_table_columns < final.length) :
    capColumns h anns final =
      (anns ++ ["  elided overflow ("
          ++ toString ((final.drop h.max_table_columns).map (·.1)).length
          ++ " columns exceed limit): "
          ++ joinComma ((final.drop h.max_table_columns).map (·.1))],
       final.take h.max_table_columns) := by
  unfold capColumns
  rw [if_pos]
  rw [Bool.and_eq_true, decide_eq_true_eq, decide_eq_true_eq]
  exact ⟨hcap, hover⟩

end MCPCondenser

namespace MCPCondenser

/-- C8: `order_columns` front-loads the identity-keyword columns (final
dotted segment in \x7bname, id, ref, uid, namespace, label, nodename\x7d,
case-insensitively), keeping each group's relative order; consequently, when
`max_table_columns > 0` forces right-truncation of the final column list and
the identity-keyword columns fit within the cap, every final column dropped
by the cap draws only on non-identity source columns (so the surviving
identity columns all sit in the kept prefix), the kept list is exactly the
first `max_table_columns` final columns, and the appended overflow
annotation lists exactly the names of the dropped columns. -/
theorem order_columns_cap_spec (cols : List String) (arr : List Value) (h : Heuristics)
    (hcap : 0 < h.max_table_columns)
    (hover : h.max_table_columns < (preCapFinal arr h).length)
    (hids : ((union_columns arr).filter isIdCol).length ≤ h.max_table_columns) :
    ((order_columns cols).take (cols.filter isIdCol).length = cols.filter isIdCol ∧
     (order_columns cols).drop (cols.filter isIdCol).length =
       cols.filter (fun c => !isIdCol c)) ∧
    (∀ entry ∈ (preCapFinal arr h).drop h.max_table_columns,
       ∀ src ∈ entry.2, isIdCol src = false) ∧
    (preprocess_table arr h).2.2 = (preCapFinal arr h).take h.max_table_columns ∧
    (preprocess_table arr h).1 =
      (preElided arr (tableCols arr) h).1 ++
        ["  elided overflow ("
          ++ toString (((preCapFinal arr h).drop h.max_table_columns).map (·.1)).length
          ++ " columns exceed limit): "
          ++ joinComma (((preCapFinal arr h).drop h.max_table_columns).map (·.1))] := by
  have hcapEq := capColumns_pos h (preElided arr (tableCols arr) h).1 (preCapFinal arr h)
    hcap hover
  refine ⟨⟨List.take_left _ _, List.drop_left _ _⟩, ?_, ?_, ?_⟩
  · -- survival: every capped-off final column has only non-identity sources
    intro entry hmem src hsrc
    set e := elidedSet arr h with he
    set tm := tableTupleMap arr h with htm
    set tms := tm.flatMap (·.2) with htms
    set A := (union_columns arr).filter isIdCol with hA
    set B := (union_columns arr).filter (fun c => !isIdCol c) with hB
    have hcols : tableCols arr = A ++ B := rfl
    have huniq : ∀ g ∈ tm, ∀ g' ∈ tm, ∀ m, m ∈ g.2 → m ∈ g'.2 → g = g' :=
      fun g hg g' hg' m hm hm' => tupleMap_member_unique hg hg' hm hm'
    have hhdr : ∀ g ∈ tm, isIdCol g.1 = false := by
      intro g hg
      obtain ⟨-, p, ms, -, -, hg1, -, -⟩ := mem_buildTupleMap hg
      rw [hg1]
      exact isIdCol_tupleHeader p g.2
    have hpre : preCapFinal arr h =
        (B.foldl (bfStep e tm tms) (A.foldl (bfStep e tm tms) ([], []))).1 := by
      rw [preCapFinal, buildFinal, ← htms, ← he, ← htm, hcols, List.foldl_append]
    set stIds := A.foldl (bfStep e tm tms) ([], []) with hstIds
    have hlen : stIds.1.length ≤ A.length := by
      have := foldBF_length e tm tms A ([], [])
      simpa using this
    have hS : ∀ g ∈ tm, (∃ m ∈ g.2, isIdCol m = true) → g.1 ∈ stIds.2 := by
      rintro g hg ⟨m, hm, hid⟩
      have hrem := tupleMap_member_mem_rem hg hm
      have hrem2 := List.mem_filter.mp hrem
      have hel : e.contains m = false := by
        have := hrem2.2
        rw [Bool.not_eq_true'] at this
        exact this
      have hmA : m ∈ A := by
        rcases List.mem_append.mp (hcols ▸ hrem2.1) with h1 | h1
        · exact h1
        · have := (List.mem_filter.mp h1).2
          rw [Bool.not_eq_true', hid] at this
          exact Bool.noConfusion this
      exact foldBF_scan huniq hhdr htms A ([], [])
        (fun g hg m hm hid hmem => absurd hmem (List.not_mem_nil m))
        hg hmA hm hid hel
    have hBnonid : ∀ c ∈ B, isIdCol c = false := by
      intro c hc
      have := (List.mem_filter.mp hc).2
      rw [Bool.not_eq_true'] at this
      exact this
    obtain ⟨d, hd, hdf⟩ := foldBF_rest_delta B stIds hBnonid hS
    rw [hpre, hd, List.drop_append_eq_append_drop,
      List.drop_eq_nil_of_le (le_trans hlen hids), List.nil_append] at hmem
    exact hdf entry (List.mem_of_mem_drop hmem) src hsrc
  · rw [preprocess_table_eq, hcapEq]
  · rw [preprocess_table_eq, hcapEq]

end MCPCondenser

namespace MCPCondenser

set_option maxHeartbeats 4000000 in
/-- The column-cap theorem instantiated on the concrete two-row table:
identity columns ordered first, the dropped final column draws only on
non-identity sources, the kept list is the capped prefix, and the overflow
annotation names the dropped columns. -/
theorem order_columns_cap_spec_witness :
    (((order_columns ["x.Id", "v"]).take ((["x.Id", "v"].filter isIdCol).length) =
        ["x.Id", "v"].filter isIdCol ∧
      (order_columns ["x.Id", "v"]).drop ((["x.Id", "v"].filter isIdCol).length) =
        ["x.Id", "v"].filter (fun c => !isIdCol c)) ∧
     (∀ entry ∈ (preCapFinal capArr capH).drop capH.max_table_columns,
        ∀ src ∈ entry.2, isIdCol src = false) ∧
     (preprocess_table capArr capH).2.2 =
       (preCapFinal capArr capH).take capH.max_table_columns ∧
     (preprocess_table capArr capH).1 =
       (preElided capArr (tableCols capArr) capH).1 ++
         ["  elided overflow ("
           ++ toString (((preCapFinal capArr capH).drop capH.max_table_columns).map (·.1)).length
           ++ " columns exceed limit): "
           ++ joinComma (((preCapFinal capArr capH).drop capH.max_table_columns).map (·.1))]) :=
  order_columns_cap_spec ["x.Id", "v"] capArr capH (by decide)
    (by
      have h1 : preCapFinal capArr capH = [("name", ["name"]), ("b", ["b"]), ("c", ["c"])] := by
        simp +decide [preCapFinal, tableCols, elidedSet, tableTupleMap, preElided, buildFinal,
          buildTupleMap, bfStep, stageAllZero, stageAllNull, stageMostlyZero, stageTimestamps,
          stageConstants, colInfo, union_columns, order_columns, isIdCol, lastSegLower, idKwList,
          capArr, capH, flattenItem, flatten, odFromList, odUpdate, objLeaves, dotKey, getV,
          fmtOpt, is_iso_ts, pyStr, joinComma]
      rw [h1]
      decide)
    (by
      have h2 : union_columns capArr = ["name", "b", "c"] := by
        simp +decide [union_columns, capArr, flattenItem, flatten, odFromList, odUpdate,
          objLeaves, dotKey]
      rw [h2]
      decide)

end MCPCondenser

namespace MCPCondenser

/-- The truncation theorem instantiated at a ten-character text and limit 1:
the limit is positive, and the no-op, largest-prefix, and bounded-growth
clauses hold there. -/
theorem truncate_to_token_limit_spec_witness :
    1 ≤ 1 ∧
    ((count_tokens "aaaaaaaaaa" ≤ 1 → truncate_to_token_limit "aaaaaaaaaa" 1 = "aaaaaaaaaa") ∧
     (1 < count_tokens "aaaaaaaaaa" →
       ∃ lo,
         truncate_to_token_limit "aaaaaaaaaa" 1 =
           strTake "aaaaaaaaaa" lo ++
             truncNotice 1 (count_tokens "aaaaaaaaaa")
               (count_tokens (strTake "aaaaaaaaaa" lo) +
                 count_tokens (truncNotice 1 (count_tokens "aaaaaaaaaa") 1)) ∧
         count_tokens (strTake "aaaaaaaaaa" lo) ≤
           (if 1 ≤ count_tokens (truncNotice 1 (count_tokens "aaaaaaaaaa") 1) then 1
            else 1 - count_tokens (truncNotice 1 (count_tokens "aaaaaaaaaa") 1)) ∧
         (∀ m, m ≤ ("aaaaaaaaaa" : String).length →
           count_tokens (strTake "aaaaaaaaaa" m) ≤
             (if 1 ≤ count_tokens (truncNotice 1 (count_tokens "aaaaaaaaaa") 1) then 1
              else 1 - count_tokens (truncNotice 1 (count_tokens "aaaaaaaaaa") 1)) → m ≤ lo)) ∧
     (count_tokens (truncNotice 1 (count_tokens "aaaaaaaaaa") 1) < 1 →
       count_tokens (truncate_to_token_limit "aaaaaaaaaa" 1) ≤ 1 + 1)) :=
  ⟨by decide, truncate_to_token_limit_spec "aaaaaaaaaa" 1 (by decide)⟩

end MCPCondenser

namespace MCPCondenser

lemma dropWhile_ne_dot_head {l : List Char} {d : Char} {rest : List Char}
    (h : l.dropWhile (fun ch => ch ≠ '.') = d :: rest) : d = '.' := by
  induction l with
  | nil => simp at h
  | cons a t ih =>
    rw [List.dropWhile_cons] at h
    by_cases ha : a = '.'
    · rw [ha] at h
      simp at h
      exact h.1.symm
    · rw [if_pos (by simpa using ha)] at h
      exact ih h

/-- `rsplit(".", 1)` decomposes the string around its last dot. -/
lemma rsplitDot_decomp {c : String} {p leaf : String}
    (hc : rsplitDot c = some (p, leaf)) :
    c.data = p.data ++ '.' :: leaf.data := by
  unfold rsplitDot at hc
  split at hc
  · next hdot =>
    simp only [Option.some.injEq, Prod.mk.injEq] at hc
    obtain ⟨hp, hl⟩ := hc
    cases hdw : c.data.reverse.dropWhile (fun ch => ch ≠ '.') with
    | nil =>
      exfalso
      have hmem : '.' ∈ c.data.reverse := by
        rw [List.mem_reverse]
        simpa using hdot
      have := List.dropWhile_eq_nil_iff.mp hdw '.' hmem
      simp at this
    | cons d rest =>
      have hd : d = '.' := dropWhile_ne_dot_head hdw
      subst hd
      have hsplit := List.takeWhile_append_dropWhile
        (p := fun ch => decide (ch ≠ '.')) (l := c.data.reverse)
      rw [hdw] at hsplit
      have hpd : p.data = rest.reverse := by
        rw [← hp]
        show (List.drop 1 (c.data.reverse.dropWhile (fun ch => ch ≠ '.'))).reverse
          = rest.reverse
        rw [hdw]
        simp
      have hld : leaf.data = (c.data.reverse.takeWhile (fun ch => ch ≠ '.')).reverse := by
        rw [← hl]
      have hc2 : c.data = rest.reverse ++ '.' ::
          (c.data.reverse.takeWhile (fun ch => ch ≠ '.')).reverse := by
        conv_lhs => rw [← List.reverse_reverse c.data, ← hsplit]
        simp [List.reverse_append]
      rw [hc2, hpd, hld]
  · exact Option.noConfusion hc

/-- A string produced by `rsplit` carries no character its source lacks. -/
lemma rsplitDot_no_paren {c p leaf : String} (hc : rsplitDot c = some (p, leaf))
    (hpar : '(' ∉ c.data) : '(' ∉ p.data ∧ '(' ∉ leaf.data := by
  have hd := rsplitDot_decomp hc
  rw [hd] at hpar
  simp only [List.mem_append, List.mem_cons, not_or] at hpar
  exact ⟨hpar.1, hpar.2.2⟩

lemma tupleHeader_data (p : String) (live : List String) :
    (tupleHeader p live).data = p.data ++ '(' ::
      ((String.intercalate "," (live.map (fun m => ((rsplitDot m).map (·.2)).getD ""))).data
        ++ [')']) := by
  unfold tupleHeader
  simp [String.data_append]

lemma paren_mem_tupleHeader (p : String) (live : List String) :
    '(' ∈ (tupleHeader p live).data := by
  rw [tupleHeader_data]
  simp

lemma takeWhile_paren_recovery {xs r : List Char} (hxs : '(' ∉ xs) :
    (xs ++ '(' :: r).takeWhile (fun ch => ch ≠ '(') = xs := by
  induction xs with
  | nil => simp [List.takeWhile_cons]
  | cons a t ih =>
    simp only [List.mem_cons, not_or] at hxs
    rw [List.cons_append, List.takeWhile_cons]
    have ha : (decide (a ≠ '(')) = true := decide_eq_true (fun he => hxs.1 he.symm)
    rw [ha]
    simp only [if_true]
    rw [ih hxs.2]

lemma tupleHeader_inj {p1 p2 : String} {l1 l2 : List String}
    (h1 : '(' ∉ p1.data) (h2 : '(' ∉ p2.data)
    (he : tupleHeader p1 l1 = tupleHeader p2 l2) : p1 = p2 := by
  have hd : (tupleHeader p1 l1).data = (tupleHeader p2 l2).data := by rw [he]
  rw [tupleHeader_data, tupleHeader_data] at hd
  have ht1 := takeWhile_paren_recovery (r :=
    ((String.intercalate "," (l1.map (fun m => ((rsplitDot m).map (·.2)).getD ""))).data
      ++ [')'])) h1
  have ht2 := takeWhile_paren_recovery (r :=
    ((String.intercalate "," (l2.map (fun m => ((rsplitDot m).map (·.2)).getD ""))).data
      ++ [')'])) h2
  have : p1.data = p2.data := by rw [← ht1, ← ht2, hd]
  cases p1
  cases p2
  exact congrArg String.mk this


end MCPCondenser

namespace MCPCondenser

/-- The two-armed member test of `detect_numeric_tuples` collapses to
"every formatted value is numeric or empty": an all-empty non-timestamp
column passes the second arm anyway. -/
lemma tupleMemberOk_eq (arr : List Value) (m : String) :
    tupleMemberOk (colInfo arr m) =
      (colInfo arr m).fmted.all (fun v => pyNumericMatch v || v = "") := by
  cases hall : (colInfo arr m).fmted.all (fun v => pyNumericMatch v || v = "") with
  | true =>
    unfold tupleMemberOk
    rw [hall, Bool.or_true]
  | false =>
    unfold tupleMemberOk
    rw [hall, Bool.or_false]
    by_cases hcard : ((colInfo arr m).unique.erase "").card = 0
    · exfalso
      have huniq : (colInfo arr m).unique = (colInfo arr m).fmted.toFinset := rfl
      have hempty : ((colInfo arr m).unique.erase "") = ∅ := Finset.card_eq_zero.mp hcard
      have hallstr : ∀ v ∈ (colInfo arr m).fmted, v = "" := by
        intro v hv
        by_contra hne
        have : v ∈ (colInfo arr m).unique.erase "" := by
          rw [Finset.mem_erase, huniq, List.mem_toFinset]
          exact ⟨hne, hv⟩
        rw [hempty] at this
        exact absurd this (Finset.not_mem_empty v)
      have : (colInfo arr m).fmted.all (fun v => pyNumericMatch v || v = "") = true := by
        rw [List.all_eq_true]
        intro v hv
        rw [hallstr v hv]
        simp
      rw [hall] at this
      exact Bool.noConfusion this
    · have : (decide (((colInfo arr m).unique.erase "").card = 0)) = false := by
        simpa using hcard
      rw [this, Bool.and_false]

lemma detect_props {arr : List Value} {rem : List String} {p : String} {ms : List String}
    (h : (p, ms) ∈ detect_numeric_tuples arr rem) :
    (p, ms) ∈ groupByPfx rem ∧ 3 ≤ ms.length ∧
      ∀ m ∈ ms, tupleMemberOk (colInfo arr m) = true := by
  unfold detect_numeric_tuples at h
  have h2 := List.mem_filter.mp h
  have h3 := h2.2
  rw [Bool.and_eq_true, decide_eq_true_eq, List.all_eq_true] at h3
  exact ⟨h2.1, h3.1, h3.2⟩

lemma mem_detect_intro {arr : List Value} {rem : List String} {p : String} {ms : List String}
    (hg : (p, ms) ∈ groupByPfx rem) (hlen : 3 ≤ ms.length)
    (hok : ∀ m ∈ ms, tupleMemberOk (colInfo arr m) = true) :
    (p, ms) ∈ detect_numeric_tuples arr rem := by
  unfold detect_numeric_tuples
  refine List.mem_filter.mpr ⟨hg, ?_⟩
  rw [Bool.and_eq_true, decide_eq_true_eq, List.all_eq_true]
  exact ⟨hlen, hok⟩

/-- Under paren-hygiene of the surviving columns, distinct kept tuple groups
have distinct synthesized headers. -/
lemma tupleMap_header_unique {arr : List Value} {rem : List String} {h : Heuristics}
    {el : List String} (hyg : ∀ c ∈ rem, '(' ∉ c.data)
    {g g' : String × List String}
    (hg : g ∈ buildTupleMap arr rem h el) (hg' : g' ∈ buildTupleMap arr rem h el)
    (he : g.1 = g'.1) : g = g' := by
  obtain ⟨-, p, ms, hdet, hg2, hg1, hlen3, -⟩ := mem_buildTupleMap hg
  obtain ⟨-, p', ms', hdet', hg2', hg1', hlen3', -⟩ := mem_buildTupleMap hg'
  have hne : g.2 ≠ [] := by
    intro h0
    rw [h0] at hlen3
    simp at hlen3
  have hne' : g'.2 ≠ [] := by
    intro h0
    rw [h0] at hlen3'
    simp at hlen3'
  obtain ⟨m, hm⟩ := List.exists_mem_of_ne_nil _ hne
  obtain ⟨m', hm'⟩ := List.exists_mem_of_ne_nil _ hne'
  have hmms : m ∈ ms := List.mem_of_mem_filter (hg2 ▸ hm)
  have hmms' : m' ∈ ms' := List.mem_of_mem_filter (hg2' ▸ hm')
  have hmrem : m ∈ rem := groupByPfx_member_mem (detect_sub_group hdet) hmms
  have hmrem' : m' ∈ rem := groupByPfx_member_mem (detect_sub_group hdet') hmms'
  obtain ⟨leaf, hrs⟩ := groupByPfx_member_pfx (detect_sub_group hdet) hmms
  obtain ⟨leaf', hrs'⟩ := groupByPfx_member_pfx (detect_sub_group hdet') hmms'
  have hppar : '(' ∉ p.data := (rsplitDot_no_paren hrs (hyg m hmrem)).1
  have hppar' : '(' ∉ p'.data := (rsplitDot_no_paren hrs' (hyg m' hmrem')).1
  have hpp : p = p' := tupleHeader_inj hppar hppar' (by rw [← hg1, ← hg1', he])
  subst hpp
  have hnd : ((groupByPfx rem).map Prod.fst).Nodup := groupByPfx_keys_nodup rem
  have heq : (p, ms) = (p, ms') :=
    List.inj_on_of_nodup_map hnd (detect_sub_group hdet) (detect_sub_group hdet') rfl
  have hms : ms = ms' := (Prod.mk.injEq _ _ _ _).mp heq |>.2
  subst hms
  have h2 : g.2 = g'.2 := by rw [hg2, hg2']
  exact Prod.ext he h2

/-- Kept tuple-group headers contain a parenthesis; their members, drawn
from the surviving columns, do not. -/
lemma tupleMap_paren_facts {arr : List Value} {rem : List String} {h : Heuristics}
    {el : List String} (hyg : ∀ c ∈ rem, '(' ∉ c.data)
    {g : String × List String} (hg : g ∈ buildTupleMap arr rem h el) :
    '(' ∈ g.1.data ∧ ∀ m ∈ g.2, '(' ∉ m.data := by
  obtain ⟨-, p, ms, hdet, hg2, hg1, -, -⟩ := mem_buildTupleMap hg
  constructor
  · rw [hg1]
    exact paren_mem_tupleHeader p g.2
  · intro m hm
    exact hyg m (tupleMap_member_mem_rem hg hm)

end MCPCondenser

namespace MCPCondenser

/-- Hygiene variant of the seen-set invariant: whenever any member of a
tuple group has been seen, the group's header has been seen. -/
def MemInvH (tm : List (String × List String))
    (st : List (String × List String) × List String) : Prop :=
  ∀ g ∈ tm, ∀ m ∈ g.2, m ∈ st.2 → g.1 ∈ st.2

lemma bfStep_MemInvH {e tms : List String} {tm : List (String × List String)}
    {st : List (String × List String) × List String} {c : String}
    (huniq : ∀ g ∈ tm, ∀ g' ∈ tm, ∀ m, m ∈ g.2 → m ∈ g'.2 → g = g')
    (hhdrpar : ∀ g ∈ tm, '(' ∈ g.1.data)
    (hmempar : ∀ g ∈ tm, ∀ m ∈ g.2, '(' ∉ m.data)
    (htms : tms = tm.flatMap (·.2))
    (hP : MemInvH tm st) : MemInvH tm (bfStep e tm tms st c) := by
  intro g hg m hm hmem
  rw [bfStep] at hmem ⊢
  by_cases h1 : (e.contains c || st.2.contains c) = true
  · rw [if_pos h1] at hmem ⊢
    exact hP g hg m hm hmem
  · rw [if_neg h1] at hmem ⊢
    by_cases h2 : tms.contains c = true
    · rw [if_pos h2] at hmem ⊢
      cases hf : tm.find? (fun g => g.2.contains c && !st.2.contains g.1) with
      | some g' =>
        rw [hf] at hmem
        dsimp only at hmem ⊢
        rcases List.mem_append.mp hmem with hm1 | hm1
        · rcases List.mem_append.mp hm1 with hm2 | hm2
          · exact List.mem_append_left _ (List.mem_append_left _ (hP g hg m hm hm2))
          · simp only [List.mem_singleton] at hm2
            subst hm2
            exact absurd (hhdrpar g' (List.mem_of_find?_eq_some hf))
              (hmempar g hg _ hm)
        · have hgg : g = g' := huniq g hg g' (List.mem_of_find?_eq_some hf) m hm hm1
          subst hgg
          exact List.mem_append_left _ (List.mem_append_right _ (by simp))
      | none =>
        rw [hf] at hmem
        exact hP g hg m hm hmem
    · rw [if_neg h2] at hmem ⊢
      dsimp only at hmem ⊢
      rcases List.mem_append.mp hmem with hm1 | hm1
      · exact List.mem_append_left _ (hP g hg m hm hm1)
      · simp only [List.mem_singleton] at hm1
        subst hm1
        exfalso
        have : tms.contains m = true :=
          List.elem_iff.mpr (htms ▸ List.mem_flatMap.mpr ⟨g, hg, hm⟩)
        rw [this] at h2
        exact h2 rfl

lemma bfStep_scanH {e tms : List String} {tm : List (String × List String)}
    {st : List (String × List String) × List String} {c : String}
    (huniq : ∀ g ∈ tm, ∀ g' ∈ tm, ∀ m, m ∈ g.2 → m ∈ g'.2 → g = g')
    (htms : tms = tm.flatMap (·.2))
    (hP : MemInvH tm st)
    {g : String × List String} (hg : g ∈ tm) (hc : c ∈ g.2)
    (hel : e.contains c = false) :
    g.1 ∈ (bfStep e tm tms st c).2 := by
  rw [bfStep]
  split
  · next hcond =>
    rw [Bool.or_eq_true, hel] at hcond
    rcases hcond with hcond | hcond
    · exact Bool.noConfusion hcond
    · exact hP g hg c hc (List.elem_iff.mp hcond)
  · have hctms : tms.contains c = true :=
      List.elem_iff.mpr (htms ▸ List.mem_flatMap.mpr ⟨g, hg, hc⟩)
    rw [if_pos hctms]
    cases hf : tm.find? (fun g => g.2.contains c && !st.2.contains g.1) with
    | some g' =>
      have hpred := List.find?_some hf
      rw [Bool.and_eq_true, List.elem_iff] at hpred
      have hgg : g = g' := huniq g hg g' (List.mem_of_find?_eq_some hf) c hc hpred.1
      subst hgg
      simp
    | none =>
      rw [List.find?_eq_none] at hf
      have := hf g hg
      rw [Bool.and_eq_true, List.elem_iff] at this
      simp only [not_and, Bool.not_eq_true'] at this
      have h2 := this hc
      cases hb : st.2.contains g.1 with
      | false => exact absurd hb h2
      | true => exact List.elem_iff.mp hb

lemma foldBF_scanH {e tms : List String} {tm : List (String × List String)}
    (huniq : ∀ g ∈ tm, ∀ g' ∈ tm, ∀ m, m ∈ g.2 → m ∈ g'.2 → g = g')
    (hhdrpar : ∀ g ∈ tm, '(' ∈ g.1.data)
    (hmempar : ∀ g ∈ tm, ∀ m ∈ g.2, '(' ∉ m.data)
    (htms : tms = tm.flatMap (·.2)) :
    ∀ (A : List String) (st : List (String × List String) × List String),
      MemInvH tm st →
      ∀ {g : String × List String}, g ∈ tm →
      ∀ {c : String}, c ∈ A → c ∈ g.2 → e.contains c = false →
      g.1 ∈ (A.foldl (bfStep e tm tms) st).2 := by
  intro A
  induction A with
  | nil =>
    intro st _ g _ c hc
    simp at hc
  | cons c0 rest ih =>
    intro st hP g hg c hcmem hc hel
    rw [List.foldl_cons]
    rcases List.mem_cons.mp hcmem with rfl | hcr
    · exact foldBF_seen_mono _ _ _ rest _ _ (bfStep_scanH huniq htms hP hg hc hel)
    · exact ih _ (bfStep_MemInvH huniq hhdrpar hmempar htms hP) hg hcr hc hel

/-- A seen group header implies the group has been placed in the final list. -/
def HdrInvP (tm : List (String × List String))
    (st : List (String × List String) × List String) : Prop :=
  ∀ g ∈ tm, g.1 ∈ st.2 → g ∈ st.1

lemma bfStep_HdrInvP {e tms : List String} {tm : List (String × List String)}
    {st : List (String × List String) × List String} {c : String}
    (hhu : ∀ g ∈ tm, ∀ g' ∈ tm, g.1 = g'.1 → g = g')
    (hhdrpar : ∀ g ∈ tm, '(' ∈ g.1.data)
    (hmempar : ∀ g ∈ tm, ∀ m ∈ g.2, '(' ∉ m.data)
    (hcpar : '(' ∉ c.data)
    (hH : HdrInvP tm st) : HdrInvP tm (bfStep e tm tms st c) := by
  intro g hg hmem
  rw [bfStep] at hmem ⊢
  by_cases h1 : (e.contains c || st.2.contains c) = true
  · rw [if_pos h1] at hmem ⊢
    exact hH g hg hmem
  · rw [if_neg h1] at hmem ⊢
    by_cases h2 : tms.contains c = true
    · rw [if_pos h2] at hmem ⊢
      cases hf : tm.find? (fun g => g.2.contains c && !st.2.contains g.1) with
      | some g' =>
        rw [hf] at hmem
        dsimp only at hmem ⊢
        rcases List.mem_append.mp hmem with hm1 | hm1
        · rcases List.mem_append.mp hm1 with hm2 | hm2
          · exact List.mem_append_left _ (hH g hg hm2)
          · simp only [List.mem_singleton] at hm2
            have hgg : g = g' := hhu g hg g' (List.mem_of_find?_eq_some hf) hm2
            subst hgg
            exact List.mem_append_right _ (by simp)
        · exact absurd (hhdrpar g hg)
            (hmempar g' (List.mem_of_find?_eq_some hf) _ hm1)
      | none =>
        rw [hf] at hmem
        exact hH g hg hmem
    · rw [if_neg h2] at hmem ⊢
      dsimp only at hmem ⊢
      rcases List.mem_append.mp hmem with hm1 | hm1
      · exact List.mem_append_left _ (hH g hg hm1)
      · simp only [List.mem_singleton] at hm1
        have := hhdrpar g hg
        rw [hm1] at this
        exact absurd this hcpar

lemma foldBF_HdrInvP {e tms : List String} {tm : List (String × List String)}
    (hhu : ∀ g ∈ tm, ∀ g' ∈ tm, g.1 = g'.1 → g = g')
    (hhdrpar : ∀ g ∈ tm, '(' ∈ g.1.data)
    (hmempar : ∀ g ∈ tm, ∀ m ∈ g.2, '(' ∉ m.data) :
    ∀ (A : List String) (st : List (String × List String) × List String),
      (∀ c ∈ A, '(' ∉ c.data) →
      HdrInvP tm st → HdrInvP tm (A.foldl (bfStep e tm tms) st) := by
  intro A
  induction A with
  | nil => exact fun st _ h => h
  | cons c rest ih =>
    intro st hA hH
    rw [List.foldl_cons]
    exact ih _ (fun c' hc' => hA c' (List.mem_cons_of_mem _ hc'))
      (bfStep_HdrInvP hhu hhdrpar hmempar (hA c (List.mem_cons_self c rest)) hH)

/-- Everything in the seen set is a header, a tuple member, a scanned column,
or was already seen. -/
lemma foldBF_seen_sub {e tms : List String} {tm : List (String × List String)}
    (hhdrpar : ∀ g ∈ tm, '(' ∈ g.1.data)
    (htms : tms = tm.flatMap (·.2)) :
    ∀ (A : List String) (st : List (String × List String) × List String),
      ∀ x ∈ (A.foldl (bfStep e tm tms) st).2,
        x ∈ st.2 ∨ '(' ∈ x.data ∨ x ∈ tms ∨ x ∈ A := by
  intro A
  induction A with
  | nil =>
    intro st x hx
    exact Or.inl hx
  | cons c rest ih =>
    intro st x hx
    rw [List.foldl_cons] at hx
    rcases ih (bfStep e tm tms st c) x hx with h1 | h1 | h1 | h1
    · rw [bfStep] at h1
      split at h1
      · exact Or.inl h1
      · split at h1
        · cases hf : tm.find? (fun g => g.2.contains c && !st.2.contains g.1) with
          | some g' =>
            rw [hf] at h1
            dsimp only at h1
            rcases List.mem_append.mp h1 with h2 | h2
            · rcases List.mem_append.mp h2 with h3 | h3
              · exact Or.inl h3
              · simp only [List.mem_singleton] at h3
                subst h3
                exact Or.inr (Or.inl (hhdrpar g' (List.mem_of_find?_eq_some hf)))
            · refine Or.inr (Or.inr (Or.inl ?_))
              rw [htms]
              exact List.mem_flatMap.mpr ⟨g', List.mem_of_find?_eq_some hf, h2⟩
          | none =>
            rw [hf] at h1
            exact Or.inl h1
        · dsimp only at h1
          rcases List.mem_append.mp h1 with h2 | h2
          · exact Or.inl h2
          · simp only [List.mem_singleton] at h2
            subst h2
            exact Or.inr (Or.inr (Or.inr (List.mem_cons_self x rest)))
    · exact Or.inr (Or.inl h1)
    · exact Or.inr (Or.inr (Or.inl h1))
    · exact Or.inr (Or.inr (Or.inr (List.mem_cons_of_mem _ h1)))

end MCPCondenser

namespace MCPCondenser

/-- Every kept tuple group appears in the final column list. -/
lemma buildFinal_mem_group {arr : List Value} {cols el : List String} {h : Heuristics}
    (hyg : ∀ c ∈ cols, '(' ∉ c.data) :
    ∀ g ∈ buildTupleMap arr (cols.filter (fun c => !el.contains c)) h el,
      g ∈ buildFinal cols el
        (buildTupleMap arr (cols.filter (fun c => !el.contains c)) h el) := by
  intro g hg
  set rem := cols.filter (fun c => !el.contains c) with hrem
  set tm := buildTupleMap arr rem h el with htm
  set tms := tm.flatMap (·.2) with htms
  have hygr : ∀ c ∈ rem, '(' ∉ c.data := fun c hc => hyg c (List.mem_of_mem_filter hc)
  have huniq : ∀ g ∈ tm, ∀ g' ∈ tm, ∀ m, m ∈ g.2 → m ∈ g'.2 → g = g' :=
    fun g hg g' hg' m hm hm' => tupleMap_member_unique hg hg' hm hm'
  have hhdrpar : ∀ g ∈ tm, '(' ∈ g.1.data :=
    fun g hg => (tupleMap_paren_facts hygr hg).1
  have hmempar : ∀ g ∈ tm, ∀ m ∈ g.2, '(' ∉ m.data :=
    fun g hg => (tupleMap_paren_facts hygr hg).2
  have hhu : ∀ g ∈ tm, ∀ g' ∈ tm, g.1 = g'.1 → g = g' :=
    fun g hg g' hg' he => tupleMap_header_unique hygr hg hg' he
  obtain ⟨-, p, ms, -, -, -, hlen3, -⟩ := mem_buildTupleMap hg
  have hne : g.2 ≠ [] := by
    intro h0
    rw [h0] at hlen3
    simp at hlen3
  obtain ⟨m, hm⟩ := List.exists_mem_of_ne_nil _ hne
  have hmrem : m ∈ rem := tupleMap_member_mem_rem hg hm
  have hmf := List.mem_filter.mp hmrem
  have hel : el.contains m = false := by
    have := hmf.2
    rw [Bool.not_eq_true'] at this
    exact this
  have hseen : g.1 ∈ (cols.foldl (bfStep el tm tms) ([], [])).2 :=
    foldBF_scanH huniq hhdrpar hmempar htms cols ([], [])
      (fun g _ m _ hmem => absurd hmem (List.not_mem_nil m))
      hg hmf.1 hm hel
  have hH : HdrInvP tm (cols.foldl (bfStep el tm tms) ([], [])) :=
    foldBF_HdrInvP hhu hhdrpar hmempar cols ([], []) hyg
      (fun g _ hmem => absurd hmem (List.not_mem_nil g.1))
  exact hH g hg hseen

/-- A surviving column in no kept tuple group appears as its own singleton
final column. -/
lemma buildFinal_mem_single {arr : List Value} {cols el : List String} {h : Heuristics}
    (hyg : ∀ c ∈ cols, '(' ∉ c.data) (hnd : cols.Nodup) :
    ∀ c ∈ cols, el.contains c = false →
      (c ∉ (buildTupleMap arr (cols.filter (fun c => !el.contains c)) h el).flatMap (·.2)) →
      (c, [c]) ∈ buildFinal cols el
        (buildTupleMap arr (cols.filter (fun c => !el.contains c)) h el) := by
  intro c hc hel hctms
  set rem := cols.filter (fun c => !el.contains c) with hrem
  set tm := buildTupleMap arr rem h el with htm
  set tms := tm.flatMap (·.2) with htms
  have hygr : ∀ c ∈ rem, '(' ∉ c.data := fun c hc => hyg c (List.mem_of_mem_filter hc)
  have hhdrpar : ∀ g ∈ tm, '(' ∈ g.1.data :=
    fun g hg => (tupleMap_paren_facts hygr hg).1
  obtain ⟨pre, post, hcols⟩ := List.append_of_mem hc
  set st1 := pre.foldl (bfStep el tm tms) ([], []) with hst1
  have hcpre : c ∉ pre := by
    rw [hcols] at hnd
    have := List.nodup_middle.mp hnd
    exact fun hmem => (List.nodup_cons.mp this).1 (List.mem_append_left _ hmem)
  have hcseen : c ∉ st1.2 := by
    intro hmem
    rcases foldBF_seen_sub hhdrpar htms pre ([], []) c hmem with h1 | h1 | h1 | h1
    · exact absurd h1 (List.not_mem_nil c)
    · exact absurd h1 (hyg c hc)
    · exact absurd h1 hctms
    · exact absurd h1 hcpre
  have hstep : bfStep el tm tms st1 c = (st1.1 ++ [(c, [c])], st1.2 ++ [c]) := by
    rw [bfStep]
    rw [if_neg, if_neg]
    · intro habs
      exact hctms (List.elem_iff.mp habs)
    · intro habs
      rw [Bool.or_eq_true, hel] at habs
      rcases habs with habs | habs
      · exact Bool.noConfusion habs
      · exact hcseen (List.elem_iff.mp habs)
  have hfold : buildFinal cols el tm =
      (post.foldl (bfStep el tm tms) (bfStep el tm tms st1 c)).1 := by
    rw [buildFinal, ← htms, hcols, List.foldl_append, List.foldl_cons]
  obtain ⟨d, hd⟩ := foldBF_final_prefix el tm tms post (bfStep el tm tms st1 c)
  rw [hfold, hd, hstep]
  exact List.mem_append_left _ (List.mem_append_right _ (by simp))

end MCPCondenser

namespace MCPCondenser

/-- C6: with `group_tuples` enabled, after the elision passes (elided set
`el`), the member test asks exactly that every formatted value be numeric or
empty; every kept group is a sibling set sharing a dotted prefix with
3..`max_tuple_size` surviving members, all numeric-or-empty, replaced by one
synthetic column `prefix(leaf1,leaf2,...)`; every qualifying sibling group is
kept; kept groups appear in the final column list; non-members survive
ungrouped as themselves; and a grouped column's row value is the comma-joined
formatted member values in declared order.  (Hygiene: column names contain no
parenthesis and are distinct, so synthesized headers collide with nothing.) -/
theorem detect_numeric_tuples_spec (arr : List Value) (cols el : List String)
    (h : Heuristics) (hgt : h.group_tuples = true)
    (hyg : ∀ c ∈ cols, '(' ∉ c.data) (hnd : cols.Nodup) :
    (∀ m : String, tupleMemberOk (colInfo arr m) =
      (colInfo arr m).fmted.all (fun v => pyNumericMatch v || v = "")) ∧
    (∀ g ∈ buildTupleMap arr (cols.filter (fun c => !el.contains c)) h el,
      ∃ p, g.1 = tupleHeader p g.2 ∧ 3 ≤ g.2.length ∧ g.2.length ≤ h.max_tuple_size ∧
        (∀ m ∈ g.2, ∃ leaf, rsplitDot m = some (p, leaf)) ∧
        (∀ m ∈ g.2,
          (colInfo arr m).fmted.all (fun v => pyNumericMatch v || v = "") = true)) ∧
    (∀ p ms, (p, ms) ∈ groupByPfx (cols.filter (fun c => !el.contains c)) →
      3 ≤ ms.length → ms.length ≤ h.max_tuple_size →
      (∀ m ∈ ms, tupleMemberOk (colInfo arr m) = true) →
      (tupleHeader p ms, ms) ∈
        buildTupleMap arr (cols.filter (fun c => !el.contains c)) h el) ∧
    (∀ g ∈ buildTupleMap arr (cols.filter (fun c => !el.contains c)) h el,
      g ∈ buildFinal cols el
        (buildTupleMap arr (cols.filter (fun c => !el.contains c)) h el)) ∧
    (∀ c ∈ cols, el.contains c = false →
      c ∉ (buildTupleMap arr (cols.filter (fun c => !el.contains c)) h el).flatMap (·.2) →
      (c, [c]) ∈ buildFinal cols el
        (buildTupleMap arr (cols.filter (fun c => !el.contains c)) h el)) ∧
    (∀ (fl : List (String × Value)) (final : List (String × List String)) g,
      g ∈ final → 2 ≤ g.2.length →
      (g.1, Value.str (String.intercalate "," (g.2.map (fun s => fmtOpt (getV fl s)))))
        ∈ cleanedRow fl final) := by
  refine ⟨tupleMemberOk_eq arr, ?_, ?_, buildFinal_mem_group hyg,
    buildFinal_mem_single hyg hnd, ?_⟩
  · intro g hg
    obtain ⟨-, p, ms, hdet, hg2, hg1, hlen3, hlenmax⟩ := mem_buildTupleMap hg
    refine ⟨p, hg1, hlen3, hlenmax, ?_, ?_⟩
    · intro m hm
      exact groupByPfx_member_pfx (detect_sub_group hdet)
        (List.mem_of_mem_filter (hg2 ▸ hm))
    · intro m hm
      have hok := (detect_props hdet).2.2 m (List.mem_of_mem_filter (hg2 ▸ hm))
      rw [tupleMemberOk_eq] at hok
      exact hok
  · intro p ms hgp hlen hmax hok
    have hsub : ∀ m ∈ ms, el.contains m = false := by
      intro m hm
      have hmrem := groupByPfx_member_mem hgp hm
      have := (List.mem_filter.mp hmrem).2
      rw [Bool.not_eq_true'] at this
      exact this
    have hdet := mem_detect_intro hgp hlen hok
    unfold buildTupleMap
    rw [hgt]
    simp only [if_true]
    refine List.mem_filterMap.mpr ⟨(p, ms), hdet, ?_⟩
    have hlive : ms.filter (fun m => !el.contains m) = ms := by
      rw [List.filter_eq_self]
      intro m hm
      rw [hsub m hm]
      rfl
    simp only [hlive]
    rw [if_pos]
    rw [Bool.and_eq_true, decide_eq_true_eq, decide_eq_true_eq]
    exact ⟨hlen, hmax⟩
  · intro fl final g hgf hlen2
    unfold cleanedRow
    refine List.mem_map.mpr ⟨g, hgf, ?_⟩
    obtain ⟨hdr, srcs⟩ := g
    cases srcs with
    | nil => simp at hlen2
    | cons a t =>
      cases t with
      | nil => simp at hlen2
      | cons b t2 => rfl

end MCPCondenser

namespace MCPCondenser

/-- The tuple-grouping theorem instantiated on the concrete `v.x/v.y/v.z`
table with default heuristics and nothing elided. -/
theorem detect_numeric_tuples_spec_witness :
    ({} : Heuristics).group_tuples = true ∧
    (∀ c ∈ tupCols, '(' ∉ c.data) ∧
    tupCols.Nodup ∧
    ((∀ m : String, tupleMemberOk (colInfo tupArr m) =
       (colInfo tupArr m).fmted.all (fun v => pyNumericMatch v || v = "")) ∧
     (∀ g ∈ buildTupleMap tupArr (tupCols.filter (fun c => !([] : List String).contains c))
         {} [],
       ∃ p, g.1 = tupleHeader p g.2 ∧ 3 ≤ g.2.length ∧
         g.2.length ≤ ({} : Heuristics).max_tuple_size ∧
         (∀ m ∈ g.2, ∃ leaf, rsplitDot m = some (p, leaf)) ∧
         (∀ m ∈ g.2,
           (colInfo tupArr m).fmted.all (fun v => pyNumericMatch v || v = "") = true)) ∧
     (∀ p ms, (p, ms) ∈ groupByPfx (tupCols.filter (fun c => !([] : List String).contains c)) →
       3 ≤ ms.length → ms.length ≤ ({} : Heuristics).max_tuple_size →
       (∀ m ∈ ms, tupleMemberOk (colInfo tupArr m) = true) →
       (tupleHeader p ms, ms) ∈
         buildTupleMap tupArr (tupCols.filter (fun c => !([] : List String).contains c))
           {} []) ∧
     (∀ g ∈ buildTupleMap tupArr (tupCols.filter (fun c => !([] : List String).contains c))
         {} [],
       g ∈ buildFinal tupCols []
         (buildTupleMap tupArr (tupCols.filter (fun c => !([] : List String).contains c))
           {} [])) ∧
     (∀ c ∈ tupCols, ([] : List String).contains c = false →
       c ∉ (buildTupleMap tupArr (tupCols.filter (fun c => !([] : List String).contains c))
           {} []).flatMap (·.2) →
       (c, [c]) ∈ buildFinal tupCols []
         (buildTupleMap tupArr (tupCols.filter (fun c => !([] : List String).contains c))
           {} [])) ∧
     (∀ (fl : List (String × Value)) (final : List (String × List String)) g,
       g ∈ final → 2 ≤ g.2.length →
       (g.1, Value.str (String.intercalate "," (g.2.map (fun s => fmtOpt (getV fl s)))))
         ∈ cleanedRow fl final)) :=
  ⟨rfl, by decide, by decide,
   detect_numeric_tuples_spec tupArr tupCols [] {} rfl (by decide) (by decide)⟩

end MCPCondenser

namespace MCPCondenser

lemma dedupFold_mem (xs acc : List String) (a : String) :
    a ∈ xs.foldl (fun acc x => if acc.contains x then acc else acc ++ [x]) acc ↔
      a ∈ acc ∨ a ∈ xs := by
  induction xs generalizing acc with
  | nil => simp
  | cons x t ih =>
    rw [List.foldl_cons]
    by_cases hx : acc.contains x = true
    · rw [if_pos hx]
      simp only [ih, List.mem_cons]
      constructor
      · rintro (h | h)
        · exact Or.inl h
        · exact Or.inr (Or.inr h)
      · rintro (h | h | h)
        · exact Or.inl h
        · subst h
          exact Or.inl (List.elem_iff.mp hx)
        · exact Or.inr h
    · rw [if_neg hx]
      simp only [ih, List.mem_append, List.mem_singleton, List.mem_cons]
      tauto

lemma dedupFold_nodup (xs : List String) :
    ∀ acc : List String, acc.Nodup →
      (xs.foldl (fun acc x => if acc.contains x then acc else acc ++ [x]) acc).Nodup := by
  induction xs with
  | nil => exact fun acc h => h
  | cons x t ih =>
    intro acc hacc
    rw [List.foldl_cons]
    by_cases hx : acc.contains x = true
    · rw [if_pos hx]
      exact ih acc hacc
    · rw [if_neg hx]
      refine ih _ ?_
      rw [List.nodup_append]
      refine ⟨hacc, List.nodup_singleton x, ?_⟩
      intro a ha hb
      simp only [List.mem_singleton] at hb
      subst hb
      exact hx (List.elem_iff.mpr ha)

/-- `sorted(<set>)` is insensitive to the order in which the elements were
collected: any permutation of the collection yields the same sorted list. -/
lemma sortedDedup_perm {xs ys : List String} (hperm : xs.Perm ys) :
    sortedDedup xs = sortedDedup ys := by
  set dx := xs.foldl (fun acc x => if acc.contains x then acc else acc ++ [x]) [] with hdx
  set dy := ys.foldl (fun acc x => if acc.contains x then acc else acc ++ [x]) [] with hdy
  have hm : ∀ a, a ∈ dx ↔ a ∈ dy := by
    intro a
    rw [hdx, hdy, dedupFold_mem, dedupFold_mem]
    simp [hperm.mem_iff]
  have hp : dx.Perm dy :=
    List.perm_of_nodup_nodup_toFinset_eq
      (dedupFold_nodup xs [] List.nodup_nil) (dedupFold_nodup ys [] List.nodup_nil)
      (by ext a; simp [hm a])
  have hs1 : List.Pairwise (fun a b : String => a ≤ b)
      (dx.mergeSort (fun a b => a ≤ b)) := by
    have h := @List.sorted_mergeSort String (fun a b : String => decide (a ≤ b))
      (fun a b c => by simpa using le_trans) (fun a b => by simpa using le_total a b) dx
    exact h.imp (fun hd => of_decide_eq_true hd)
  have hs2 : List.Pairwise (fun a b : String => a ≤ b)
      (dy.mergeSort (fun a b => a ≤ b)) := by
    have h := @List.sorted_mergeSort String (fun a b : String => decide (a ≤ b))
      (fun a b c => by simpa using le_trans) (fun a b => by simpa using le_total a b) dy
    exact h.imp (fun hd => of_decide_eq_true hd)
  have hp2 : (dx.mergeSort (fun a b => a ≤ b)).Perm (dy.mergeSort (fun a b => a ≤ b)) :=
    ((dx.mergeSort_perm _).trans hp).trans (dy.mergeSort_perm _).symm
  exact List.eq_of_perm_of_sorted hp2 hs1 hs2

/-- C9: the embedded `condense_json` is a pure function of the parsed value
and the heuristics — equal inputs give byte-identical output — and the one
place the source iterates over an unordered set (`sorted(array_fields)` and
`sorted(sub_tables.items())` in `render_table`), the sort makes the result
independent of the collection order, so repeated runs cannot diverge. -/
theorem condense_json_deterministic (E : Value → String) (d d' : Value)
    (h h' : Heuristics) (hd : d = d') (hh : h = h') :
    condense_json E d h = condense_json E d' h' ∧
    (∀ xs ys : List String, xs.Perm ys → sortedDedup xs = sortedDedup ys) := by
  constructor
  · rw [hd, hh]
  · intro xs ys hperm
    exact sortedDedup_perm hperm

/-- The determinism theorem instantiated at a concrete tree and heuristics. -/
theorem condense_json_deterministic_witness :
    Value.null = Value.null ∧ ({} : Heuristics) = {} ∧
    (condense_json refEncode Value.null {} = condense_json refEncode Value.null {} ∧
     (∀ xs ys : List String, xs.Perm ys → sortedDedup xs = sortedDedup ys)) :=
  ⟨rfl, rfl, condense_json_deterministic refEncode Value.null Value.null {} {} rfl rfl⟩

end MCPCondenser

namespace MCPCondenser

lemma flatMap_keep {f : String} (X : String × Value → List (String × Value))
    (l : List (String × Value)) (h : ∀ kv ∈ l, kv.1 ≠ f) :
    l.flatMap (fun kv => if kv.1 = f then X kv else [kv]) = l := by
  induction l with
  | nil => rfl
  | cons kv t ih =>
    rw [List.flatMap_cons, if_neg (h kv (List.mem_cons_self kv t))]
    rw [ih (fun kv' hkv' => h kv' (List.mem_cons_of_mem _ hkv'))]
    rfl

/-- `pivotRow` replaces the KV-array field in place by one `f.<Key>` column
per key and touches nothing else. -/
lemma pivotRow_eq (keys : List String) (f : String) (pre post : List (String × Value))
    (elems : List Value)
    (hpre : ∀ kv ∈ pre, kv.1 ≠ f) (hpost : ∀ kv ∈ post, kv.1 ≠ f) :
    topFields (pivotRow keys f (Value.obj (pre ++ (f, Value.arr elems) :: post))) =
      pre ++ (keys.map (fun k => (f ++ "." ++ k, kvLookup elems k)) ++ post) := by
  show (pre ++ (f, Value.arr elems) :: post).flatMap
      (fun kv => if kv.1 = f then
        match kv.2 with
        | .arr elems => keys.map (fun k => (f ++ "." ++ k, kvLookup elems k))
        | _ => [kv]
       else [kv]) = _
  rw [List.flatMap_append, List.flatMap_cons]
  rw [flatMap_keep _ pre hpre, flatMap_keep _ post hpost]
  rw [if_pos rfl]

lemma length_append_dot (f k : String) : (f ++ "." ++ k).length = f.length + 1 + k.length := by
  rw [String.length_append, String.length_append]
  rfl

/-- The pivoted row no longer carries the original array field. -/
lemma pivotRow_removes (keys : List String) (f : String) (pre post : List (String × Value))
    (elems : List Value)
    (hpre : ∀ kv ∈ pre, kv.1 ≠ f) (hpost : ∀ kv ∈ post, kv.1 ≠ f) :
    f ∉ (topFields (pivotRow keys f (Value.obj (pre ++ (f, Value.arr elems) :: post)))).map
      Prod.fst := by
  rw [pivotRow_eq keys f pre post elems hpre hpost]
  intro hmem
  rw [List.map_append, List.map_append] at hmem
  rcases List.mem_append.mp hmem with h1 | h1
  · obtain ⟨kv, hkv, hkv1⟩ := List.mem_map.mp h1
    exact hpre kv hkv hkv1
  · rcases List.mem_append.mp h1 with h2 | h2
    · rw [List.map_map] at h2
      obtain ⟨k, -, hk⟩ := List.mem_map.mp h2
      have := congrArg String.length hk
      rw [Function.comp] at this
      dsimp only at this
      rw [length_append_dot] at this
      omega
    · obtain ⟨kv, hkv, hkv1⟩ := List.mem_map.mp h2
      exact hpost kv hkv hkv1

/-- A key absent from the KV array yields the empty-string value. -/
lemma kvLookup_absent (elems : List Value) (k : String)
    (h : ∀ e ∈ elems, ¬kvKeyOf e = some k) : kvLookup elems k = Value.str "" := by
  unfold kvLookup
  rw [List.find?_eq_none.mpr]
  intro e he
  simpa using h e he

/-- The first element bearing the key supplies the value. -/
lemma kvLookup_found (e1 : List Value) (e : Value) (e2 : List Value) (k : String)
    (h1 : ∀ e' ∈ e1, ¬kvKeyOf e' = some k) (he : kvKeyOf e = some k) :
    kvLookup (e1 ++ e :: e2) k = (kvValueOf e).getD (Value.str "") := by
  unfold kvLookup
  rw [List.find?_append, List.find?_eq_none.mpr, Option.none_or,
    List.find?_cons_of_pos _ (by simpa using he)]
  intro e' he'
  simpa using h1 e' he'

lemma kvKeysInner_mem (elems : List Value) :
    ∀ (ks : List String) (a : String),
      a ∈ elems.foldl (fun ks e =>
        match kvKeyOf e with
        | some k => if ks.contains k then ks else ks ++ [k]
        | none => ks) ks ↔
      a ∈ ks ∨ ∃ e ∈ elems, kvKeyOf e = some a := by
  induction elems with
  | nil => simp
  | cons e t ih =>
    intro ks a
    rw [List.foldl_cons]
    cases hk : kvKeyOf e with
    | none =>
      rw [ih]
      constructor
      · rintro (h | ⟨e', he', hk'⟩)
        · exact Or.inl h
        · exact Or.inr ⟨e', List.mem_cons_of_mem _ he', hk'⟩
      · rintro (h | ⟨e', he', hk'⟩)
        · exact Or.inl h
        · rcases List.mem_cons.mp he' with rfl | he''
          · rw [hk] at hk'
            exact Option.noConfusion hk'
          · exact Or.inr ⟨e', he'', hk'⟩
    | some k =>
      dsimp only
      by_cases hc : ks.contains k = true
      · rw [if_pos hc, ih]
        constructor
        · rintro (h | ⟨e', he', hk'⟩)
          · exact Or.inl h
          · exact Or.inr ⟨e', List.mem_cons_of_mem _ he', hk'⟩
        · rintro (h | ⟨e', he', hk'⟩)
          · exact Or.inl h
          · rcases List.mem_cons.mp he' with rfl | he''
            · rw [hk] at hk'
              obtain rfl : k = a := Option.some.inj hk'
              exact Or.inl (List.elem_iff.mp hc)
            · exact Or.inr ⟨e', he'', hk'⟩
      · rw [if_neg hc, ih]
        constructor
        · rintro (h | ⟨e', he', hk'⟩)
          · rcases List.mem_append.mp h with h2 | h2
            · exact Or.inl h2
            · simp only [List.mem_singleton] at h2
              subst h2
              exact Or.inr ⟨e, List.mem_cons_self e t, hk⟩
          · exact Or.inr ⟨e', List.mem_cons_of_mem _ he', hk'⟩
        · rintro (h | ⟨e', he', hk'⟩)
          · exact Or.inl (List.mem_append_left _ h)
          · rcases List.mem_cons.mp he' with rfl | he''
            · rw [hk] at hk'
              obtain rfl : k = a := Option.some.inj hk'
              exact Or.inl (List.mem_append_right _ (by simp))
            · exact Or.inr ⟨e', he'', hk'⟩

/-- Membership in the key union: exactly the Keys appearing in field `f`
across the rows. -/
lemma kvKeys_mem (rows : List Value) (f : String) (a : String) :
    a ∈ kvKeys rows f ↔
      ∃ r ∈ rows, ∃ elems, getV (topFields r) f = some (Value.arr elems) ∧
        ∃ e ∈ elems, kvKeyOf e = some a := by
  unfold kvKeys
  suffices H : ∀ (rs : List Value) (ks : List String),
      a ∈ rs.foldl (fun ks r =>
        match getV (topFields r) f with
        | some (.arr elems) =>
          elems.foldl (fun ks e =>
            match kvKeyOf e with
            | some k => if ks.contains k then ks else ks ++ [k]
            | none => ks) ks
        | _ => ks) ks ↔
      a ∈ ks ∨ ∃ r ∈ rs, ∃ elems, getV (topFields r) f = some (Value.arr elems) ∧
        ∃ e ∈ elems, kvKeyOf e = some a by
    rw [H rows []]
    simp
  intro rs
  induction rs with
  | nil => simp
  | cons r t ih =>
    intro ks
    rw [List.foldl_cons]
    have hback : ∀ P : Prop, (∃ r' ∈ t, ∃ elems, getV (topFields r') f =
        some (Value.arr elems) ∧ ∃ e ∈ elems, kvKeyOf e = some a) → P ∨
        (∃ r' ∈ r :: t, ∃ elems, getV (topFields r') f = some (Value.arr elems) ∧
          ∃ e ∈ elems, kvKeyOf e = some a) :=
      fun P ⟨r', hr', rest⟩ => Or.inr ⟨r', List.mem_cons_of_mem _ hr', rest⟩
    cases hv : getV (topFields r) f with
    | none =>
      rw [ih]
      constructor
      · rintro (h | rest)
        · exact Or.inl h
        · exact hback _ rest
      · rintro (h | ⟨r', hr', elems', hv', rest⟩)
        · exact Or.inl h
        · rcases List.mem_cons.mp hr' with rfl | hr''
          · rw [hv] at hv'
            exact Option.noConfusion hv'
          · exact Or.inr ⟨r', hr'', elems', hv', rest⟩
    | some v =>
      cases v with
      | arr elems =>
        rw [ih, kvKeysInner_mem]
        constructor
        · rintro (⟨h | ⟨e, he, hke⟩⟩ | rest)
          · exact Or.inl h
          · exact Or.inr ⟨r, List.mem_cons_self r t, elems, hv, e, he, hke⟩
          · exact hback _ rest
        · rintro (h | ⟨r', hr', elems', hv', rest⟩)
          · exact Or.inl (Or.inl h)
          · rcases List.mem_cons.mp hr' with rfl | hr''
            · rw [hv] at hv'
              obtain rfl : elems = elems' := Value.arr.inj (Option.some.inj hv')
              exact Or.inl (Or.inr rest)
            · exact Or.inr ⟨r', hr'', elems', hv', rest⟩
      | null =>
        rw [ih]
        constructor
        · rintro (h | rest)
          · exact Or.inl h
          · exact hback _ rest
        · rintro (h | ⟨r', hr', elems', hv', rest⟩)
          · exact Or.inl h
          · rcases List.mem_cons.mp hr' with rfl | hr''
            · rw [hv] at hv'
              exact Value.noConfusion (Option.some.inj hv')
            · exact Or.inr ⟨r', hr'', elems', hv', rest⟩
      | bool b =>
        rw [ih]
        constructor
        · rintro (h | rest)
          · exact Or.inl h
          · exact hback _ rest
        · rintro (h | ⟨r', hr', elems', hv', rest⟩)
          · exact Or.inl h
          · rcases List.mem_cons.mp hr' with rfl | hr''
            · rw [hv] at hv'
              exact Value.noConfusion (Option.some.inj hv')
            · exact Or.inr ⟨r', hr'', elems', hv', rest⟩
      | int n =>
        rw [ih]
        constructor
        · rintro (h | rest)
          · exact Or.inl h
          · exact hback _ rest
        · rintro (h | ⟨r', hr', elems', hv', rest⟩)
          · exact Or.inl h
          · rcases List.mem_cons.mp hr' with rfl | hr''
            · rw [hv] at hv'
              exact Value.noConfusion (Option.some.inj hv')
            · exact Or.inr ⟨r', hr'', elems', hv', rest⟩
      | str s =>
        rw [ih]
        constructor
        · rintro (h | rest)
          · exact Or.inl h
          · exact hback _ rest
        · rintro (h | ⟨r', hr', elems', hv', rest⟩)
          · exact Or.inl h
          · rcases List.mem_cons.mp hr' with rfl | hr''
            · rw [hv] at hv'
              exact Value.noConfusion (Option.some.inj hv')
            · exact Or.inr ⟨r', hr'', elems', hv', rest⟩
      | obj fs =>
        rw [ih]
        constructor
        · rintro (h | rest)
          · exact Or.inl h
          · exact hback _ rest
        · rintro (h | ⟨r', hr', elems', hv', rest⟩)
          · exact Or.inl h
          · rcases List.mem_cons.mp hr' with rfl | hr''
            · rw [hv] at hv'
              exact Value.noConfusion (Option.some.inj hv')
            · exact Or.inr ⟨r', hr'', elems', hv', rest⟩

end MCPCondenser
